import Mathlib

/-!
# Verification of `concat_files.py`

Shallow embedding of the file-concatenation tool `src/concat_files.py`.

Modelling conventions:

* A Python string is a Lean `String`; where proofs need induction we work on
  `String.data : List Char`.  Python's `str` comparison is lexicographic by
  code point, embedded as `charListLe`.
* An absolute, canonical file-system path is a `List String` of its components
  (the path `/a/b` is `["a", "b"]`).  `Path(p).resolve()` is modelled as the
  identity: inputs are taken to be already absolute and canonical.
  `str(path)` is `pathString`, i.e. `"/" ++ component ++ "/" ++ component ...`.
* The file system is an explicit tree `FSNode`; directory entries keep the
  enumeration order that `os.listdir`/`os.walk`/`iterdir` would present.
* `str.lower()` is modelled as ASCII lowercasing (`Char.toLower`), which
  agrees with Python on all ASCII data.
* Output written to the sink is modelled as the list of written chunks
  (each `write` call contributes its string); the bytes of the run are the
  concatenation of the chunks.
-/

set_option maxHeartbeats 1600000

/-- Python string `<=`: lexicographic comparison of code points. -/
def charListLe : List Char → List Char → Bool
  | [], _ => true
  | _ :: _, [] => false
  | a :: as, b :: bs =>
    if a < b then true
    else if b < a then false
    else charListLe as bs

theorem charListLe_refl : ∀ a : List Char, charListLe a a = true
  | [] => rfl
  | a :: as => by simp [charListLe, lt_irrefl a, charListLe_refl as]

theorem charListLe_total : ∀ a b : List Char, charListLe a b = true ∨ charListLe b a = true
  | [], _ => Or.inl rfl
  | _ :: _, [] => Or.inr rfl
  | a :: as, b :: bs => by
    rcases lt_trichotomy a b with h | h | h
    · exact Or.inl (by simp [charListLe, h])
    · subst h
      simpa [charListLe, lt_irrefl a] using charListLe_total as bs
    · exact Or.inr (by simp [charListLe, h])

theorem charListLe_trans :
    ∀ a b c : List Char, charListLe a b = true → charListLe b c = true →
      charListLe a c = true
  | [], _, _, _, _ => rfl
  | _ :: _, [], _, h, _ => by simp [charListLe] at h
  | _ :: _, _ :: _, [], _, h => by simp [charListLe] at h
  | a :: as, b :: bs, c :: cs, hab, hbc => by
    simp only [charListLe] at hab hbc ⊢
    rcases lt_trichotomy a b with h1 | h1 | h1
    · rcases lt_trichotomy b c with h2 | h2 | h2
      · simp [lt_trans h1 h2]
      · subst h2; simp [h1]
      · rw [if_neg (asymm h2), if_pos h2] at hbc; simp at hbc
    · subst h1
      rcases lt_trichotomy a c with h2 | h2 | h2
      · simp [h2]
      · subst h2
        rw [if_neg (lt_irrefl a), if_neg (lt_irrefl a)] at hab hbc ⊢
        exact charListLe_trans as bs cs hab hbc
      · rw [if_neg (asymm h2), if_pos h2] at hbc; simp at hbc
    · rw [if_neg (asymm h1), if_pos h1] at hab; simp at hab

theorem charListLe_antisymm :
    ∀ a b : List Char, charListLe a b = true → charListLe b a = true → a = b
  | [], [], _, _ => rfl
  | [], _ :: _, _, h => by simp [charListLe] at h
  | _ :: _, [], h, _ => by simp [charListLe] at h
  | a :: as, b :: bs, hab, hba => by
    simp only [charListLe] at hab hba
    rcases lt_trichotomy a b with h1 | h1 | h1
    · rw [if_neg (asymm h1), if_pos h1] at hba; simp at hba
    · subst h1
      rw [if_neg (lt_irrefl a), if_neg (lt_irrefl a)] at hab hba
      rw [charListLe_antisymm as bs hab hba]
    · rw [if_neg (asymm h1), if_pos h1] at hab; simp at hab

/-- Python `<=` on strings, as a proposition (used as the sort order). -/
def strLe (a b : String) : Prop := charListLe a.data b.data = true

instance : DecidableRel strLe := fun a b => by unfold strLe; infer_instance

instance : IsTotal String strLe := ⟨fun a b => charListLe_total a.data b.data⟩

instance : IsTrans String strLe :=
  ⟨fun _ _ _ h1 h2 => charListLe_trans _ _ _ h1 h2⟩

instance : IsAntisymm String strLe :=
  ⟨fun a b h1 h2 => by
    cases a; cases b
    exact congrArg String.mk (charListLe_antisymm _ _ h1 h2)⟩

/-! ## The extension of a filename

`should_include_file` computes `file_path.suffix.lower().lstrip(".")`
(line 58).  `Path.suffix` of a name is `name[i:]` where `i` is the index of
the *last* dot, provided `0 < i < len(name) - 1`, and `""` otherwise. -/

/-- Index of the last `'.'` in a character list (`name.rfind('.')`),
`none` when there is no dot. -/
def rfindDot : List Char → Option Nat
  | [] => none
  | c :: cs =>
    match rfindDot cs with
    | some i => some (i + 1)
    | none => if c = '.' then some 0 else none

/-- `Path.suffix` on the filename's characters: the substring from the last
dot when that dot is neither at position 0 nor the final character,
otherwise empty. -/
def pySuffix (cs : List Char) : List Char :=
  match rfindDot cs with
  | some i => if 0 < i ∧ i < cs.length - 1 then cs.drop i else []
  | none => []

/-- `suffix.lower().lstrip(".")` — the extension string the filter uses
(line 58 of `concat_files.py`). -/
def extChars (cs : List Char) : List Char :=
  (pySuffix cs).map Char.toLower |>.dropWhile (· = '.')

/-- Extension of a filename, as a `String`. -/
def extOfName (name : String) : String := ⟨extChars name.data⟩

/-- The filename (final component) of a path, `Path.name`. -/
def pathName (p : List String) : String := p.getLastD ""

/-- Truthiness of an optional extension set: Python's
`if include_exts: ...` is false for `None` and for an empty set. -/
def optTruthy : Option (List String) → Bool
  | none => false
  | some l => !l.isEmpty

/-- Membership of an extension in an optional extension set
(`ext in include_exts`); an absent set contains nothing. -/
def optMem (o : Option (List String)) (x : String) : Bool :=
  match o with
  | none => false
  | some l => l.contains x

/-- `should_include_file` (lines 48–65): reject when the include set is
truthy and the extension is absent from it; otherwise reject when the
exclude set is truthy and contains the extension; otherwise accept. -/
def should_include_file (p : List String) (include_exts exclude_exts : Option (List String)) :
    Bool :=
  let ext := extOfName (pathName p)
  if optTruthy include_exts && !optMem include_exts ext then false
  else if optTruthy exclude_exts && optMem exclude_exts ext then false
  else true

/-! ## Facts about `rfindDot` and lowercasing -/

theorem rfindDot_eq_none {cs : List Char} (h : rfindDot cs = none) : '.' ∉ cs := by
  induction cs with
  | nil => simp
  | cons c cs ih =>
    simp only [rfindDot] at h
    cases hr : rfindDot cs with
    | some j => rw [hr] at h; simp at h
    | none =>
      rw [hr] at h
      by_cases hc : c = '.'
      · simp [hc] at h
      · intro hm
        rcases List.mem_cons.mp hm with h1 | h1
        · exact hc h1.symm
        · exact ih hr h1

theorem rfindDot_spec : ∀ {cs : List Char} {i : Nat}, rfindDot cs = some i →
    i < cs.length ∧ cs.drop i = '.' :: cs.drop (i + 1) ∧ '.' ∉ cs.drop (i + 1) := by
  intro cs
  induction cs with
  | nil => intro i h; simp [rfindDot] at h
  | cons c cs ih =>
    intro i h
    simp only [rfindDot] at h
    cases hr : rfindDot cs with
    | some j =>
      rw [hr] at h
      obtain ⟨h1, h2, h3⟩ := ih hr
      cases h
      refine ⟨by simpa using Nat.succ_lt_succ h1, ?_, ?_⟩
      · simpa using h2
      · simpa using h3
    | none =>
      rw [hr] at h
      by_cases hc : c = '.'
      · simp only [hc, if_pos rfl] at h
        cases h
        exact ⟨by simp, by simp [hc], by simpa using rfindDot_eq_none hr⟩
      · simp [hc] at h

theorem toLower_ne_dot {c : Char} (h : c ≠ '.') : Char.toLower c ≠ '.' := by
  intro hl
  apply h
  simp only [Char.toLower] at hl
  split at hl
  · exfalso
    rename_i hn
    have hval : (Char.toNat c + 32).isValidChar := Or.inl (by omega)
    rw [Char.ofNat, dif_pos hval] at hl
    have hv : (Char.ofNatAux (Char.toNat c + 32) hval).toNat = Char.toNat c + 32 := by
      simp [Char.ofNatAux, Char.toNat, UInt32.toNat]
    rw [hl] at hv
    have hdot : ('.' : Char).toNat = 46 := rfl
    omega
  · exact hl

theorem dropWhile_dot_of_not_mem {l : List Char} (h : '.' ∉ l) :
    l.dropWhile (· = '.') = l := by
  cases l with
  | nil => rfl
  | cons a l =>
    have : a ≠ '.' := fun hc => h (by simp [hc])
    simp [List.dropWhile_cons, this]

/-- The extension rule the code actually implements, written out as in the
amended claim: the substring after the *last* dot, lower-cased, provided
that dot is neither the first nor the last character of the filename;
otherwise the empty string. -/
def amendedExtChars (cs : List Char) : List Char :=
  match rfindDot cs with
  | some i => if 0 < i ∧ i + 1 < cs.length then (cs.drop (i + 1)).map Char.toLower else []
  | none => []

/-- The extension rule the claim states: the substring after the last dot,
lower-cased, with no extra condition; empty only when there is no dot. -/
def claimedExtChars (cs : List Char) : List Char :=
  match rfindDot cs with
  | some i => (cs.drop (i + 1)).map Char.toLower
  | none => []

theorem extChars_eq_amended (cs : List Char) : extChars cs = amendedExtChars cs := by
  cases h : rfindDot cs with
  | none => simp [extChars, pySuffix, amendedExtChars, h]
  | some i =>
    obtain ⟨hlen, hdrop, hnot⟩ := rfindDot_spec h
    simp only [extChars, pySuffix, amendedExtChars, h]
    by_cases hc : 0 < i ∧ i + 1 < cs.length
    · have hc' : 0 < i ∧ i < cs.length - 1 := ⟨hc.1, by omega⟩
      rw [if_pos hc', if_pos hc, hdrop]
      simp only [List.map_cons]
      have hld : Char.toLower '.' = '.' := rfl
      rw [hld, List.dropWhile_cons, if_pos (by decide)]
      apply dropWhile_dot_of_not_mem
      intro hmem
      obtain ⟨a, ha, hla⟩ := List.mem_map.mp hmem
      by_cases hax : a = '.'
      · exact hnot (hax ▸ ha)
      · exact toLower_ne_dot hax hla
    · have hc' : ¬ (0 < i ∧ i < cs.length - 1) := by
        intro ⟨x, y⟩; exact hc ⟨x, by omega⟩
      rw [if_neg hc', if_neg hc]
      simp

theorem optTruthy_false_iff (o : Option (List String)) :
    optTruthy o = false ↔ (o = none ∨ o = some []) := by
  rcases o with _ | l
  · simp [optTruthy]
  · cases l <;> simp [optTruthy]

theorem optMem_true_truthy {o : Option (List String)} {x : String}
    (h : optMem o x = true) : optTruthy o = true := by
  rcases o with _ | l
  · simp [optMem] at h
  · cases l with
    | nil => simp [optMem, List.contains] at h
    | cons a l => simp [optTruthy]

theorem optMem_false_of_not_truthy {o : Option (List String)} {x : String}
    (h : optTruthy o = false) : optMem o x = false := by
  cases hm : optMem o x
  · rfl
  · rw [optMem_true_truthy hm] at h; cases h

/-- C1: `should_include_file` accepts a file iff the include set is absent,
empty, or contains the file's extension, and the exclude set does not
contain the extension; so a file whose extension is in both sets is
rejected. -/
theorem should_include_file_iff (p : List String) (incl excl : Option (List String)) :
    should_include_file p incl excl = true ↔
      ((incl = none ∨ incl = some [] ∨ optMem incl (extOfName (pathName p)) = true) ∧
        optMem excl (extOfName (pathName p)) = false) := by
  have hcode : should_include_file p incl excl
      = (!(optTruthy incl && !optMem incl (extOfName (pathName p)))
         && !(optTruthy excl && optMem excl (extOfName (pathName p)))) := by
    simp only [should_include_file]
    cases optTruthy incl <;> cases optMem incl (extOfName (pathName p)) <;>
      cases optTruthy excl <;> cases optMem excl (extOfName (pathName p)) <;> rfl
  have bool_nand_true : ∀ {a b : Bool}, (!(a && b)) = true ↔ (a = false ∨ b = false) := by
    intro a b; cases a <;> cases b <;> simp
  rw [hcode, Bool.and_eq_true, bool_nand_true, bool_nand_true]
  constructor
  · rintro ⟨h1, h2⟩
    refine ⟨?_, ?_⟩
    · rcases h1 with h | h
      · rcases (optTruthy_false_iff incl).mp h with h' | h'
        · exact Or.inl h'
        · exact Or.inr (Or.inl h')
      · refine Or.inr (Or.inr ?_)
        revert h; cases optMem incl (extOfName (pathName p)) <;> simp
    · rcases h2 with h | h
      · exact optMem_false_of_not_truthy h
      · exact h
  · rintro ⟨h1, h2⟩
    refine ⟨?_, Or.inr h2⟩
    rcases h1 with h | h | h
    · exact Or.inl ((optTruthy_false_iff incl).mpr (Or.inl h))
    · exact Or.inl ((optTruthy_false_iff incl).mpr (Or.inr h))
    · exact Or.inr (by rw [h]; rfl)

/-- C3 (counterexample): the claim predicts that the extension of a dotfile
such as `.bashrc` is `bashrc` (substring after the last dot).  The code
computes `Path.suffix`, which is empty for a leading-dot-only name, so the
filter's extension of `.bashrc` is `""`; in particular a file named
`.bashrc` is rejected under `--include bashrc`. -/
theorem ext_claim_counterexample :
    extOfName ".bashrc" = "" ∧
    (⟨claimedExtChars ".bashrc".data⟩ : String) = "bashrc" ∧
    extOfName ".bashrc" ≠ (⟨claimedExtChars ".bashrc".data⟩ : String) ∧
    should_include_file ["home", ".bashrc"] (some ["bashrc"]) none = false := by
  refine ⟨by decide, by decide, by decide, by decide⟩

/-- C3 (amended): the extension used by the filter is the lower-cased
substring after the last `.` of the filename *provided that dot is neither
the first nor the last character*; otherwise (no dot, a dotfile such as
`.bashrc`, or a name ending in its only dot) it is the empty string. -/
theorem ext_eq_amended_rule (name : String) :
    extOfName name = ⟨amendedExtChars name.data⟩ :=
  congrArg String.mk (extChars_eq_amended name.data)

/-! ## The directory-tree structure (`build_directory_structure_for_files`)

The Python code builds a nested `dict`: keys other than `"_files"` map to
sub-dicts (subdirectories, in insertion order), and the `"_files"` key maps
to the list of filenames at that level.  We model a node as an association
list of named children plus the files bucket as a separate field (the magic
`"_files"` key of the dict); `setdefault` inserts new keys at the end, and
appends keep list order. -/

inductive DTree where
  | node (subdirs : List (String × DTree)) (files : List String)

def DTree.files : DTree → List String
  | .node _ fs => fs

def DTree.subdirs : DTree → List (String × DTree)
  | .node sd _ => sd

/-- First value bound to a key in an association list (Python dict lookup;
keys are unique in dicts built by the code). -/
def assocFind {κ α : Type} [DecidableEq κ] : List (κ × α) → κ → Option α
  | [], _ => none
  | (k, v) :: rest, d => if k = d then some v else assocFind rest d

/-- Insert one relative path into the tree, as the loop body of
`build_directory_structure_for_files` (lines 158–164): walk/create the
nodes named by all components but the last, then append the last component
to that node's files bucket. -/
def updateChild (d : String) (g : DTree → DTree) : DTree → DTree
  | .node subs fs =>
    match assocFind subs d with
    | some _ => .node (subs.map fun e => if e.1 = d then (e.1, g e.2) else e) fs
    | none => .node (subs ++ [(d, g (.node [] []))]) fs

def insertPath : List String → DTree → DTree
  | [], t => t
  | [f], .node subs fs => .node subs (fs ++ [f])
  | d :: p :: rest, t => updateChild d (insertPath (p :: rest)) t

/-- The tree built from a list of relative paths (the `for f in files` loop). -/
def buildTree (ps : List (List String)) : DTree :=
  ps.foldl (fun t p => insertPath p t) (.node [] [])

/-- Follow a chain of subdirectory names. -/
def subtreeAt : DTree → List String → Option DTree
  | t, [] => some t
  | t, d :: q =>
    match assocFind t.subdirs d with
    | some c => subtreeAt c q
    | none => none

/-- The files bucket of the node reached by the address `q` (empty when no
such node exists). -/
def filesAt (t : DTree) (q : List String) : List String :=
  match subtreeAt t q with
  | some c => c.files
  | none => []

/-- The tree that `build_directory_structure_for_files` builds for a
directory top-level path: each file contributes `f.relative_to(top_path)`,
modelled as dropping the top path's components (the gathered files all lie
strictly below the top path). -/
def dirTreeOf (top : List String) (files : List (List String)) : DTree :=
  buildTree (files.map fun f => f.drop top.length)

/-- Last component of a path (`parts[-1]`); `""` for the empty list,
which never arises for the inserted relative paths. -/
def lastComp : List String → String
  | [] => ""
  | [x] => x
  | _ :: x :: xs => lastComp (x :: xs)

theorem filesAt_node_nil (subs : List (String × DTree)) (fs : List String) :
    filesAt (.node subs fs) [] = fs := rfl

theorem filesAt_node_cons (subs : List (String × DTree)) (fs : List String) (e : String)
    (q : List String) :
    filesAt (.node subs fs) (e :: q) =
      match assocFind subs e with
      | some c => filesAt c q
      | none => [] := by
  cases h : assocFind subs e <;> simp [filesAt, subtreeAt, DTree.subdirs, h]

theorem filesAt_empty (q : List String) : filesAt (.node [] []) q = [] := by
  cases q <;> rfl

theorem assocFind_mapUpdate (subs : List (String × DTree)) (d e : String) (g : DTree → DTree) :
    assocFind (subs.map fun x => if x.1 = d then (x.1, g x.2) else x) e =
      if e = d then (assocFind subs d).map g else assocFind subs e := by
  induction subs with
  | nil => by_cases h : e = d <;> simp [assocFind, h]
  | cons a rest ih =>
    obtain ⟨k, v⟩ := a
    simp only [List.map_cons]
    by_cases hkd : k = d
    · subst hkd
      rw [show (if (k, v).1 = k then ((k, v).1, g (k, v).2) else (k, v)) = (k, g v) from if_pos rfl]
      by_cases hke : k = e
      · subst hke
        simp [assocFind]
      · simp [assocFind, hke, Ne.symm hke, ih]
    · rw [show (if (k, v).1 = d then ((k, v).1, g (k, v).2) else (k, v)) = (k, v) from if_neg hkd]
      by_cases hke : k = e
      · subst hke
        simp [assocFind, hkd, ih]
      · simp [assocFind, hkd, hke, ih]

theorem assocFind_append (subs : List (String × DTree)) (d e : String) (x : DTree) :
    assocFind (subs ++ [(d, x)]) e =
      match assocFind subs e with
      | some v => some v
      | none => if d = e then some x else none := by
  induction subs with
  | nil => by_cases h : d = e <;> simp [assocFind, h]
  | cons a rest ih =>
    obtain ⟨k, v⟩ := a
    by_cases hke : k = e <;> simp [assocFind, hke, ih]

theorem assocFind_cons (k : String) (v : DTree) (rest : List (String × DTree)) (e : String) :
    assocFind ((k, v) :: rest) e = if k = e then some v else assocFind rest e := rfl

/-- Effect of one insertion on every files bucket: the bucket addressed by
the inserted path's parent chain gains the path's last component at its
end; all other buckets are unchanged. -/
theorem filesAt_insertPath : ∀ (p : List String) (t : DTree) (q : List String),
    filesAt (insertPath p t) q =
      filesAt t q ++ (if p ≠ [] ∧ p.dropLast = q then [lastComp p] else [])
  | [], t, q => by simp [insertPath]
  | [f], .node subs fs, q => by
    cases q with
    | nil => simp [insertPath, filesAt_node_nil, lastComp]
    | cons e q' =>
      rw [show insertPath [f] (.node subs fs) = .node subs (fs ++ [f]) from by
        simp [insertPath]]
      rw [filesAt_node_cons, filesAt_node_cons]
      simp
  | d :: p' :: rest, .node subs fs, q => by
    cases hfind : assocFind subs d with
    | some v =>
      have hins : insertPath (d :: p' :: rest) (.node subs fs)
          = .node (subs.map fun e => if e.1 = d then (e.1, insertPath (p' :: rest) e.2) else e)
              fs := by
        simp [insertPath, updateChild, hfind]
      cases q with
      | nil =>
        rw [hins, filesAt_node_nil, filesAt_node_nil,
          if_neg (by intro hx; have := hx.2; simp at this)]
        simp
      | cons e q' =>
        rw [hins, filesAt_node_cons, assocFind_mapUpdate, filesAt_node_cons]
        by_cases hed : e = d
        · subst hed
          rw [if_pos rfl, hfind]
          simp only [Option.map_some']
          rw [filesAt_insertPath (p' :: rest) v q']
          refine congrArg (filesAt v q' ++ ·) ?_
          refine if_congr ?_ rfl rfl
          simp
        · rw [if_neg hed,
            if_neg (by
              intro hx
              have h2 := hx.2
              rw [List.dropLast_cons₂] at h2
              exact hed ((List.cons.inj h2).1.symm))]
          cases assocFind subs e <;> simp
    | none =>
      have hins : insertPath (d :: p' :: rest) (.node subs fs)
          = .node (subs ++ [(d, insertPath (p' :: rest) (.node [] []))]) fs := by
        simp [insertPath, updateChild, hfind]
      cases q with
      | nil =>
        rw [hins, filesAt_node_nil, filesAt_node_nil,
          if_neg (by intro hx; have := hx.2; simp at this)]
        simp
      | cons e q' =>
        rw [hins, filesAt_node_cons, filesAt_node_cons]
        cases hfe : assocFind subs e with
        | some c =>
          have hde : ¬ (d = e) := by intro h; rw [h, hfe] at hfind; cases hfind
          have hcond : ¬ (d :: p' :: rest ≠ [] ∧ (d :: p' :: rest).dropLast = e :: q') := by
            intro hx
            have h2 := hx.2
            rw [List.dropLast_cons₂] at h2
            exact hde ((List.cons.inj h2).1)
          rw [if_neg hcond]
          have hval : assocFind (subs ++ [(d, insertPath (p' :: rest) (.node [] []))]) e
              = some c := by rw [assocFind_append, hfe]
          simp [hval]
        | none =>
          by_cases hde : d = e
          · subst hde
            have hval : assocFind (subs ++ [(d, insertPath (p' :: rest) (.node [] []))]) d
                = some (insertPath (p' :: rest) (.node [] [])) := by
              rw [assocFind_append, hfe]
              simp
            have hrec := filesAt_insertPath (p' :: rest) (.node [] []) q'
            rw [filesAt_empty] at hrec
            simp only [hval, hrec]
            simp only [List.nil_append]
            refine if_congr ?_ rfl rfl
            simp
          · have hval : assocFind (subs ++ [(d, insertPath (p' :: rest) (.node [] []))]) e
                = none := by
              rw [assocFind_append, hfe]
              simp [hde]
            have hcond : ¬ (d :: p' :: rest ≠ [] ∧ (d :: p' :: rest).dropLast = e :: q') := by
              intro hx
              have h2 := hx.2
              rw [List.dropLast_cons₂] at h2
              exact hde ((List.cons.inj h2).1)
            rw [if_neg hcond]
            simp [hval]
termination_by p _ _ => p.length
decreasing_by all_goals simp

/-- Bucket contents of the tree built by the insertion loop: the files at
address `q` are exactly the last components of those inserted paths whose
parent chain equals `q`, in insertion order. -/
theorem filesAt_foldl_insert :
    ∀ (ps : List (List String)) (t : DTree) (q : List String),
      filesAt (ps.foldl (fun t p => insertPath p t) t) q =
        filesAt t q ++ ((ps.filter fun p => decide (p ≠ [] ∧ p.dropLast = q)).map lastComp)
  | [], t, q => by simp
  | p :: ps, t, q => by
    rw [List.foldl_cons, filesAt_foldl_insert ps _ q, filesAt_insertPath, List.filter_cons]
    by_cases hc : p ≠ [] ∧ p.dropLast = q
    · simp [hc]
    · simp [hc]

theorem filesAt_buildTree (ps : List (List String)) (q : List String) :
    filesAt (buildTree ps) q =
      ((ps.filter fun p => decide (p ≠ [] ∧ p.dropLast = q)).map lastComp) := by
  rw [buildTree, filesAt_foldl_insert, filesAt_empty, List.nil_append]

/-- C2 (counterexample): for the top-level path `/a/b` and the single
gathered file `/a/b/c.txt`, the builder puts `c.txt` in the files bucket at
the root of the per-top-path tree, not in a bucket reached through the
nested levels `a`, `b` that the claim's from-the-absolute-root grouping
demands: the bucket at address `["a", "b"]` is empty. -/
theorem dirTree_claim_counterexample :
    filesAt (dirTreeOf ["a", "b"] [["a", "b", "c.txt"]]) [] = ["c.txt"] ∧
    filesAt (dirTreeOf ["a", "b"] [["a", "b", "c.txt"]]) ["a", "b"] = [] ∧
    ¬ (filesAt (dirTreeOf ["a", "b"] [["a", "b", "c.txt"]]) ["a", "b"]
        = (([["a", "b", "c.txt"]].filter fun f =>
            decide (f ≠ [] ∧ f.dropLast = ["a", "b"])).map lastComp)) := by
  refine ⟨by decide, by decide, by decide⟩

/-- C2 (amended): the builder groups filenames by the components of each
file's path *relative to its top-level path* (`f.relative_to(top_path)`):
all relative components except the last become successive nested levels,
and the last component lands in the files bucket of the deepest level; the
bucket at address `q` holds exactly the last components of the files whose
relative parent chain is `q`. -/
theorem dirTree_groups_by_relative_components (top : List String)
    (files : List (List String)) (q : List String)
    (h : ∀ f ∈ files, top.length < f.length ∧ f.take top.length = top) :
    filesAt (dirTreeOf top files) q =
      (((files.map fun f => f.drop top.length).filter fun r =>
          decide (r ≠ [] ∧ r.dropLast = q)).map lastComp) := by
  rw [dirTreeOf, filesAt_buildTree]

/-- Witness for the amended C2 theorem at a concrete input. -/
theorem dirTree_groups_witness :
    filesAt (dirTreeOf ["a", "b"] [["a", "b", "s", "x.txt"], ["a", "b", "y.txt"]]) ["s"]
      = ["x.txt"] :=
  (dirTree_groups_by_relative_components ["a", "b"]
      [["a", "b", "s", "x.txt"], ["a", "b", "y.txt"]] ["s"]
      (by decide)).trans (by decide)

/-! ## The tree renderer (`_print_tree`) -/

def pairLe (a b : String × DTree) : Prop := strLe a.1 b.1

instance : DecidableRel pairLe := fun a b => by unfold pairLe strLe; infer_instance

/-- `subdirs.sort()` / `files.sort()`: Python's stable sort under the
code-point string order, modelled as insertion sort. -/
def sortStrings (l : List String) : List String := List.insertionSort strLe l

/-- Sorting the subdirectory entries by name (the Python code sorts the
key list and indexes `node[d]`; the builder's trees have unique keys, so
this is the same). -/
def sortPairs (l : List (String × DTree)) : List (String × DTree) :=
  List.insertionSort pairLe l

/-- `_print_tree` (lines 171–186), purified to return the lines it appends:
subdirectory entries first in sorted order, each name line (with a trailing
slash) followed by the recursive rendering of its subtree at `indent` plus
two spaces, then this level's files, sorted, at the same indent. -/
def printTree : DTree → String → List String
  | .node subs fs, indent =>
    ((sortPairs subs).attach.flatMap fun e =>
      (indent ++ e.1.1 ++ "/") :: printTree e.1.2 (indent ++ "  ")) ++
    ((sortStrings fs).map fun f => indent ++ f)
termination_by t _ => sizeOf t
decreasing_by
  have h1 : e.1 ∈ List.insertionSort pairLe subs := e.2
  have h2 := (List.mem_insertionSort pairLe).mp h1
  have h3 := List.sizeOf_lt_of_mem h2
  have h4 : sizeOf e.1.2 < sizeOf e.1 := by
    obtain ⟨x, y⟩ := e.1
    simp
  simp only [DTree.node.sizeOf_spec]
  omega

/-- `build_directory_structure_for_files` (lines 131–168): for a file
top-level path, just the filename(s); for a directory, the directory's
name (with trailing slash, no indent) followed by `_print_tree` of the
relative-path tree starting at a two-space indent. -/
def build_directory_structure_for_files (isFile : Bool) (top : List String)
    (files : List (List String)) : List String :=
  if isFile then
    if files.length = 1 then [pathName top]
    else if 1 < files.length then files.map pathName
    else []
  else
    (pathName top ++ "/") :: printTree (dirTreeOf top files) "  "

/-- Depth measured in two-space units: the line indentation the claim
describes ("indentation grows by a fixed two-space unit per level"). -/
def indentOf : Nat → String
  | 0 => ""
  | d + 1 => indentOf d ++ "  "

/-- The renderer's contract as the claim states it, with depth counted:
sorted subdirectory entries first, each immediately followed by its
recursive rendering one level deeper, then the sorted files at the same
level's indent. -/
def renderDecl : DTree → Nat → List String
  | .node subs fs, depth =>
    ((sortPairs subs).attach.flatMap fun e =>
      (indentOf depth ++ e.1.1 ++ "/") :: renderDecl e.1.2 (depth + 1)) ++
    ((sortStrings fs).map fun f => indentOf depth ++ f)
termination_by t _ => sizeOf t
decreasing_by
  have h1 : e.1 ∈ List.insertionSort pairLe subs := e.2
  have h2 := (List.mem_insertionSort pairLe).mp h1
  have h3 := List.sizeOf_lt_of_mem h2
  have h4 : sizeOf e.1.2 < sizeOf e.1 := by
    obtain ⟨x, y⟩ := e.1
    simp
  simp only [DTree.node.sizeOf_spec]
  omega

theorem listBind_congr {α β : Type _} {l : List α} {f g : α → List β}
    (h : ∀ a ∈ l, f a = g a) : l.flatMap f = l.flatMap g := by
  induction l with
  | nil => rfl
  | cons a l ih =>
    simp only [List.flatMap_cons]
    rw [h a (by simp), ih fun x hx => h x (by simp [hx])]

theorem printTree_eq_renderDecl : ∀ (t : DTree) (d : Nat),
    printTree t (indentOf d) = renderDecl t d
  | .node subs fs, d => by
    rw [printTree, renderDecl]
    refine congrArg₂ (· ++ ·) ?_ rfl
    refine listBind_congr ?_
    intro e _
    refine congrArg ((indentOf d ++ e.1.1 ++ "/") :: ·) ?_
    rw [show indentOf d ++ "  " = indentOf (d + 1) from rfl]
    exact printTree_eq_renderDecl e.1.2 (d + 1)
termination_by t _ => sizeOf t
decreasing_by
  have h1 : e.1 ∈ List.insertionSort pairLe subs := e.2
  have h2 := (List.mem_insertionSort pairLe).mp h1
  have h3 := List.sizeOf_lt_of_mem h2
  have h4 : sizeOf e.1.2 < sizeOf e.1 := by
    obtain ⟨x, y⟩ := e.1
    simp
  simp only [DTree.node.sizeOf_spec]
  omega

/-- C8: the rendering of a built tree lists, at every level, the
subdirectory entries first in alphabetical order, each immediately
followed by its recursively rendered contents one level deeper, and then
that level's files in alphabetical order at the same indent; indentation
is a fixed two-space unit per depth level, and the root line (the top
directory's name) carries no leading indent. -/
theorem renderer_depth_and_order :
    (∀ (t : DTree) (d : Nat), printTree t (indentOf d) = renderDecl t d) ∧
    (∀ (top : List String) (files : List (List String)),
      build_directory_structure_for_files false top files
        = (indentOf 0 ++ pathName top ++ "/") :: renderDecl (dirTreeOf top files) 1) := by
  refine ⟨printTree_eq_renderDecl, fun top files => ?_⟩
  rw [build_directory_structure_for_files, if_neg (by simp)]
  rw [show ("  " : String) = indentOf 1 from rfl]
  rw [printTree_eq_renderDecl]
  rfl

/-! ## The file paths represented in a built tree -/

/-- All paths represented in a tree: every entry of a files bucket,
prefixed by the chain of subdirectory names leading to it. -/
def treePaths : DTree → List (List String)
  | .node subs fs =>
    (fs.map fun f => [f]) ++
    (subs.attach.flatMap fun e => (treePaths e.1.2).map (e.1.1 :: ·))
termination_by t => sizeOf t
decreasing_by
  have h3 := List.sizeOf_lt_of_mem e.2
  have h4 : sizeOf e.1.2 < sizeOf e.1 := by
    obtain ⟨x, y⟩ := e.1
    simp
  simp only [DTree.node.sizeOf_spec]
  omega

theorem treePaths_empty : treePaths (.node [] []) = [] := by rw [treePaths]; simp

theorem mem_treePaths (x : List String) (subs : List (String × DTree)) (fs : List String) :
    x ∈ treePaths (.node subs fs) ↔
      ((∃ f ∈ fs, [f] = x) ∨ ∃ e ∈ subs, ∃ r ∈ treePaths e.2, e.1 :: r = x) := by
  rw [treePaths]
  simp [Subtype.exists]

theorem assocFind_some_mem : ∀ {subs : List (String × DTree)} {d : String} {v : DTree},
    assocFind subs d = some v → (d, v) ∈ subs := by
  intro subs
  induction subs with
  | nil => intro d v h; cases h
  | cons a rest ih =>
    intro d v h
    obtain ⟨k, w⟩ := a
    rw [assocFind_cons] at h
    by_cases hk : k = d
    · rw [if_pos hk] at h
      cases h
      exact List.mem_cons.mpr (Or.inl (by rw [hk]))
    · rw [if_neg hk] at h
      exact List.mem_cons.mpr (Or.inr (ih h))

theorem mem_treePaths_updateChild (d : String) (g : DTree → DTree) (rel : List String)
    (hg : ∀ (c : DTree) (x : List String), x ∈ treePaths (g c) ↔ (x = rel ∨ x ∈ treePaths c))
    (subs : List (String × DTree)) (fs : List String) (x : List String) :
    x ∈ treePaths (updateChild d g (.node subs fs)) ↔
      (x = d :: rel ∨ x ∈ treePaths (.node subs fs)) := by
  cases hfind : assocFind subs d with
  | some v =>
    rw [show updateChild d g (.node subs fs)
        = .node (subs.map fun e => if e.1 = d then (e.1, g e.2) else e) fs from by
      simp [updateChild, hfind]]
    rw [mem_treePaths, mem_treePaths]
    constructor
    · rintro (⟨f, hf, hfx⟩ | ⟨e, he, r, hr, hx⟩)
      · exact Or.inr (Or.inl ⟨f, hf, hfx⟩)
      · obtain ⟨b, hb, hbe⟩ := List.mem_map.mp he
        by_cases hbd : b.1 = d
        · rw [if_pos hbd] at hbe
          subst hbe
          rcases (hg b.2 r).mp hr with hrel | hold
          · subst hrel
            refine Or.inl ?_
            rw [← hx, hbd]
          · exact Or.inr (Or.inr ⟨b, hb, r, hold, hx⟩)
        · rw [if_neg hbd] at hbe
          subst hbe
          exact Or.inr (Or.inr ⟨b, hb, r, hr, hx⟩)
    · rintro (hx | ⟨f, hf, hfx⟩ | ⟨e, he, r, hr, hx⟩)
      · refine Or.inr ⟨(d, g v), ?_, rel, (hg v rel).mpr (Or.inl rfl), by rw [hx]⟩
        exact List.mem_map.mpr ⟨(d, v), assocFind_some_mem hfind, by simp⟩
      · exact Or.inl ⟨f, hf, hfx⟩
      · by_cases hbd : e.1 = d
        · refine Or.inr ⟨(e.1, g e.2), List.mem_map.mpr ⟨e, he, by rw [if_pos hbd]⟩, r,
            (hg e.2 r).mpr (Or.inr hr), hx⟩
        · exact Or.inr ⟨e, List.mem_map.mpr ⟨e, he, by rw [if_neg hbd]⟩, r, hr, hx⟩
  | none =>
    rw [show updateChild d g (.node subs fs)
        = .node (subs ++ [(d, g (.node [] []))]) fs from by simp [updateChild, hfind]]
    rw [mem_treePaths, mem_treePaths]
    constructor
    · rintro (⟨f, hf, hfx⟩ | ⟨e, he, r, hr, hx⟩)
      · exact Or.inr (Or.inl ⟨f, hf, hfx⟩)
      · rcases List.mem_append.mp he with hin | hnew
        · exact Or.inr (Or.inr ⟨e, hin, r, hr, hx⟩)
        · have he2 : e = (d, g (.node [] [])) := by simpa using hnew
          subst he2
          rcases (hg _ r).mp hr with hrel | hold
          · subst hrel
            exact Or.inl hx.symm
          · rw [treePaths_empty] at hold
            cases hold
    · rintro (hx | ⟨f, hf, hfx⟩ | ⟨e, he, r, hr, hx⟩)
      · exact Or.inr ⟨(d, g (.node [] [])), List.mem_append.mpr (Or.inr (by simp)), rel,
          (hg _ rel).mpr (Or.inl rfl), by rw [hx]⟩
      · exact Or.inl ⟨f, hf, hfx⟩
      · exact Or.inr ⟨e, List.mem_append.mpr (Or.inl he), r, hr, hx⟩

theorem mem_treePaths_insertPath : ∀ (p : List String), p ≠ [] →
    ∀ (t : DTree) (x : List String),
      (x ∈ treePaths (insertPath p t) ↔ (x = p ∨ x ∈ treePaths t))
  | [], hp, _, _ => absurd rfl hp
  | [f], _, .node subs fs, x => by
    rw [show insertPath [f] (.node subs fs) = .node subs (fs ++ [f]) from by simp [insertPath]]
    rw [mem_treePaths, mem_treePaths]
    constructor
    · rintro (⟨g1, hg1, hgx⟩ | hsub)
      · rcases List.mem_append.mp hg1 with hin | hnew
        · exact Or.inr (Or.inl ⟨g1, hin, hgx⟩)
        · have : g1 = f := by simpa using hnew
          subst this
          exact Or.inl (by rw [← hgx])
      · exact Or.inr (Or.inr hsub)
    · rintro (hx | ⟨g1, hg1, hgx⟩ | hsub)
      · exact Or.inl ⟨f, List.mem_append.mpr (Or.inr (by simp)), by rw [hx]⟩
      · exact Or.inl ⟨g1, List.mem_append.mpr (Or.inl hg1), hgx⟩
      · exact Or.inr hsub
  | d :: p' :: rest, _, t, x => by
    rw [show insertPath (d :: p' :: rest) t = updateChild d (insertPath (p' :: rest)) t from by
      cases t; simp [insertPath]]
    cases t with
    | node subs fs =>
      exact mem_treePaths_updateChild d _ (p' :: rest)
        (fun c y => mem_treePaths_insertPath (p' :: rest) (by simp) c y) subs fs x
termination_by p _ _ _ => p.length
decreasing_by all_goals simp

theorem mem_treePaths_buildTree (ps : List (List String)) (hps : ∀ p ∈ ps, p ≠ [])
    (x : List String) :
    x ∈ treePaths (buildTree ps) ↔ x ∈ ps := by
  have gen : ∀ (l : List (List String)), (∀ p ∈ l, p ≠ []) → ∀ (t : DTree),
      (x ∈ treePaths (l.foldl (fun t p => insertPath p t) t) ↔ (x ∈ l ∨ x ∈ treePaths t)) := by
    intro l
    induction l with
    | nil => intro _ t; simp
    | cons p l ih =>
      intro hl t
      rw [List.foldl_cons, ih fun q hq => hl q (by simp [hq])]
      rw [mem_treePaths_insertPath p (hl p (by simp))]
      simp only [List.mem_cons]
      tauto
  rw [buildTree, gen ps hps (.node [] []), treePaths_empty]
  simp

/-! ## Sorting by full path string -/

/-- `str(path)` for an absolute path, as characters: `/` before every
component (`/a/b` for `["a", "b"]`). -/
def pathKey (p : List String) : List Char :=
  p.foldl (fun acc c => acc ++ ('/' :: c.data)) []

/-- `str(path)` as a `String`. -/
def pathString (p : List String) : String := ⟨pathKey p⟩

/-- The order `sorted(..., key=lambda x: str(x))` sorts by. -/
def pathLe (a b : List String) : Prop := charListLe (pathKey a) (pathKey b) = true

instance : DecidableRel pathLe := fun a b => by unfold pathLe; infer_instance

instance : IsTotal (List String) pathLe :=
  ⟨fun a b => charListLe_total (pathKey a) (pathKey b)⟩

instance : IsTrans (List String) pathLe :=
  ⟨fun _ _ _ h1 h2 => charListLe_trans _ _ _ h1 h2⟩

/-- `sorted(paths, key=str)`, modelled as a stable insertion sort. -/
def sortPaths (l : List (List String)) : List (List String) :=
  List.insertionSort pathLe l

/-! ## Per-top-path entries and the files they contribute -/

/-- One entry of the `file_dict` built by `gather_all_files`: a resolved
top-level path, whether it is a regular file, and the (sorted) list of
gathered files under it. -/
structure TopEntry where
  top : List String
  isFileTop : Bool
  files : List (List String)

/-- The file paths the header lines of one entry stand for: nothing when
the entry is skipped (no files); for a file top path the rendered filename
denotes the top path itself (resp. the gathered files in the defensive
`len > 1` branch); for a directory, each bucket entry of the rendered tree
read back as top path ++ subdirectory chain ++ filename. -/
def entryHeaderPaths (e : TopEntry) : List (List String) :=
  if e.files.isEmpty then []
  else if e.isFileTop then (if e.files.length = 1 then [e.top] else e.files)
  else (treePaths (dirTreeOf e.top e.files)).map (e.top ++ ·)

/-- The combined list `all_files` of `main` (lines 204–209): concatenation
of the per-entry file lists, sorted by full path string. -/
def allFilesOf (entries : List TopEntry) : List (List String) :=
  sortPaths (entries.flatMap TopEntry.files)

theorem entryHeaderPaths_mem (e : TopEntry)
    (hdir : e.isFileTop = false →
      ∀ f ∈ e.files, e.top.length < f.length ∧ f.take e.top.length = e.top)
    (hfile : e.isFileTop = true → e.files = [] ∨ e.files = [e.top]) (x : List String) :
    (x ∈ entryHeaderPaths e ↔ x ∈ e.files) := by
  cases hf : e.isFileTop with
  | true =>
    rcases hfile hf with h0 | h1
    · simp [entryHeaderPaths, h0]
    · simp [entryHeaderPaths, h1, hf]
  | false =>
    by_cases hemp : e.files.isEmpty
    · rw [List.isEmpty_iff] at hemp
      simp [entryHeaderPaths, hemp]
    · rw [entryHeaderPaths, if_neg hemp, hf]
      simp only [Bool.false_eq_true, if_false]
      rw [List.mem_map]
      have hnonnil : ∀ p ∈ e.files.map fun f => f.drop e.top.length, p ≠ [] := by
        intro p hp
        obtain ⟨f, hfm, hfr⟩ := List.mem_map.mp hp
        obtain ⟨hlen, _⟩ := hdir hf f hfm
        rw [← hfr]
        intro hnil
        have := congrArg List.length hnil
        simp at this
        omega
      constructor
      · rintro ⟨r, hr, hx⟩
        rw [dirTreeOf, mem_treePaths_buildTree _ hnonnil] at hr
        obtain ⟨f, hfm, hfr⟩ := List.mem_map.mp hr
        obtain ⟨hlen, htake⟩ := hdir hf f hfm
        rw [← hx, ← hfr]
        have hfull : e.top ++ List.drop e.top.length f = f := by
          nth_rewrite 1 [← htake]
          exact List.take_append_drop _ f
        rw [hfull]
        exact hfm
      · intro hx
        obtain ⟨hlen, htake⟩ := hdir hf x hx
        refine ⟨x.drop e.top.length, ?_, ?_⟩
        · rw [dirTreeOf, mem_treePaths_buildTree _ hnonnil]
          exact List.mem_map.mpr ⟨x, hx, rfl⟩
        · nth_rewrite 1 [← htake]
          exact List.take_append_drop _ x

/-- C4: the set of file paths represented in the rendered
directory-structure header equals the set of file paths given a
START/END-delimited section in the concatenation body. -/
theorem header_body_same_files (entries : List TopEntry)
    (hdir : ∀ e ∈ entries, e.isFileTop = false →
      ∀ f ∈ e.files, e.top.length < f.length ∧ f.take e.top.length = e.top)
    (hfile : ∀ e ∈ entries, e.isFileTop = true → e.files = [] ∨ e.files = [e.top]) :
    ∀ x, (x ∈ entries.flatMap entryHeaderPaths ↔ x ∈ allFilesOf entries) := by
  intro x
  rw [allFilesOf, sortPaths, List.mem_insertionSort]
  simp only [List.mem_flatMap]
  constructor
  · rintro ⟨e, he, hx⟩
    exact ⟨e, he, (entryHeaderPaths_mem e (hdir e he) (hfile e he) x).mp hx⟩
  · rintro ⟨e, he, hx⟩
    exact ⟨e, he, (entryHeaderPaths_mem e (hdir e he) (hfile e he) x).mpr hx⟩

/-- Witness for C4 at a concrete run: one directory entry and one file
entry. -/
theorem header_body_same_files_witness :
    ["r", "a.txt"] ∈
      [TopEntry.mk ["r"] false [["r", "a.txt"]], TopEntry.mk ["f.txt"] true [["f.txt"]]].flatMap
        entryHeaderPaths :=
  (header_body_same_files
    [TopEntry.mk ["r"] false [["r", "a.txt"]], TopEntry.mk ["f.txt"] true [["f.txt"]]]
    (by decide) (by decide) ["r", "a.txt"]).mpr (by decide)

/-! ## The file system and discovery (`gather_files_for_path`, `gather_all_files`) -/

/-- A file-system node: a regular file carrying what reading it yields
(its decoded content, or the description of the error raised), or a
directory with named children in enumeration (`os.listdir`) order. -/
inductive FSNode where
  | file (content : Except String String)
  | dir (children : List (String × FSNode))

/-- Resolve an absolute path in the tree. -/
def lookupFS : FSNode → List String → Option FSNode
  | n, [] => some n
  | .file _, _ :: _ => none
  | .dir ch, c :: rest =>
    match assocFind ch c with
    | some n => lookupFS n rest
    | none => none

def FSNode.isFileNode : FSNode → Bool
  | .file _ => true
  | .dir _ => false

/-- `path.exists()`. -/
def existsFS (fs : FSNode) (p : List String) : Bool := (lookupFS fs p).isSome

/-- `path.is_file()`. -/
def isFileFS (fs : FSNode) (p : List String) : Bool :=
  match lookupFS fs p with
  | some n => n.isFileNode
  | none => false

mutual

/-- `os.walk` top-down from a directory: the directory's regular files in
enumeration order, then each child in order, recursing (a file child
contributes nothing on the recursive side, matching `os.walk` descending
only into directories); `pre` is the node's absolute path. -/
def walkFiles (pre : List String) : FSNode → List (List String)
  | .file _ => []
  | .dir ch =>
    (ch.filterMap fun c =>
      match c.2 with
      | .file _ => some (pre ++ [c.1])
      | .dir _ => none) ++
    walkSub pre ch

def walkSub (pre : List String) : List (String × FSNode) → List (List String)
  | [] => []
  | (n, c) :: rest => walkFiles (pre ++ [n]) c ++ walkSub pre rest

end

/-- The warning printed for a missing top-level path (line 82). -/
def warningMsg (p : List String) : String :=
  "Warning: " ++ pathString p ++ " does not exist. Skipping."

/-- `gather_files_for_path` (lines 68–104): the gathered absolute paths in
discovery order, and the warnings printed to stderr.  A missing path warns
and yields nothing; a file is tested by the filter; a directory is walked
(recursively or only its direct file children), every regular file tested
by the filter. -/
def gather_files_for_path (fs : FSNode) (path : List String) (recursive : Bool)
    (incl excl : Option (List String)) : List (List String) × List String :=
  match lookupFS fs path with
  | none => ([], [warningMsg path])
  | some (.file _) =>
    (if should_include_file path incl excl then [path] else [], [])
  | some (.dir ch) =>
    (if recursive then
      (walkFiles path (.dir ch)).filter fun f => should_include_file f incl excl
    else
      ch.filterMap fun c =>
        match c.2 with
        | .file _ =>
          if should_include_file (path ++ [c.1]) incl excl then some (path ++ [c.1]) else none
        | .dir _ => none,
     [])

/-- Insertion-ordered dict update: overwrite the value in place when the
key is present, append otherwise. -/
def dictInsert (l : List (List String × List (List String))) (k : List String)
    (v : List (List String)) : List (List String × List (List String)) :=
  match l with
  | [] => [(k, v)]
  | (k', v') :: rest => if k' = k then (k', v) :: rest else (k', v') :: dictInsert rest k v

/-- `gather_all_files` (lines 107–128): a dict keyed by resolved top-level
path in insertion order (duplicate paths collapse onto one key), each
value the per-path gathered list sorted by full path string; together with
all warnings in emission order. -/
def gather_all_files (fs : FSNode) (paths : List (List String)) (recursive : Bool)
    (incl excl : Option (List String)) :
    List (List String × List (List String)) × List String :=
  paths.foldl
    (fun acc p =>
      (dictInsert acc.1 p (sortPaths (gather_files_for_path fs p recursive incl excl).1),
       acc.2 ++ (gather_files_for_path fs p recursive incl excl).2))
    ([], [])

/-! ## The output writer (`main`, lines 217–247) -/

/-- Reading a file body: the decoded content, or the description of the
raised error (the concrete error strings stand for the exception text). -/
def readFile (fs : FSNode) (p : List String) : Except String String :=
  match lookupFS fs p with
  | some (.file c) => c
  | some (.dir _) => .error ("[Errno 21] Is a directory: " ++ pathString p)
  | none => .error ("[Errno 2] No such file or directory: " ++ pathString p)

def startMarker (p : List String) : String :=
  "===== START OF FILE: " ++ pathString p ++ " =====\n"

def endMarker (p : List String) : String :=
  "===== END OF FILE: " ++ pathString p ++ " =====\n\n"

def errorLine (e : String) : String := "[Error reading file: " ++ e ++ "]\n"

/-- The chunks written for one file (lines 239–247): the START marker, the
file's content — or the single error line when reading fails — and the
END marker followed by a blank line. -/
def fileSection (fs : FSNode) (p : List String) : List String :=
  [startMarker p] ++
  (match readFile fs p with
   | .ok content => [content]
   | .error e => [errorLine e]) ++
  [endMarker p]

/-- The concatenation body: each file's section, in list order. -/
def bodyChunks (fs : FSNode) : List (List String) → List String
  | [] => []
  | p :: rest => fileSection fs p ++ bodyChunks fs rest

def headerBanner : String := "===== Directory Structure Header =====\n"

def closingBanner : String := "======================================\n\n"

def noFilesLine : String := "(No files matched the filters.)\n"

/-- The header's tree chunks (the loop at lines 220–234): per dict entry
in order, skipping entries without files, each tree line written with a
newline; the placeholder chunk when the loop printed nothing. -/
def headerCore (fs : FSNode) (entries : List (List String × List (List String))) :
    List String :=
  let r := entries.foldl
    (fun (acc : List String × Bool) e =>
      if e.2.isEmpty then acc
      else
        (acc.1 ++
          (build_directory_structure_for_files (isFileFS fs e.1) e.1 e.2).map (fun l => l ++ "\n"),
         true))
    ([], false)
  if r.2 then r.1 else r.1 ++ [noFilesLine]

/-- All chunks written to the output sink for prepared extension sets. -/
def outputChunks (fs : FSNode) (paths : List (List String)) (recursive : Bool)
    (incl excl : Option (List String)) : List String :=
  [headerBanner] ++ headerCore fs (gather_all_files fs paths recursive incl excl).1 ++
  [closingBanner] ++
  bodyChunks fs
    (sortPaths ((gather_all_files fs paths recursive incl excl).1.flatMap fun e => e.2))

/-- `include_exts = set(e.lower().lstrip(".") for e in args.include) if
args.include else None` (lines 193–194); the set is only ever used for
membership, so it is kept as the list of normalised extensions. -/
def prepExts : Option (List String) → Option (List String)
  | none => none
  | some l =>
    if l.isEmpty then none
    else some (l.map fun e => ⟨(e.data.map Char.toLower).dropWhile (· = '.')⟩)

/-- One whole run of `main`: the sink chunks and the stderr warnings. -/
def mainOutput (fs : FSNode) (paths : List (List String)) (recursive : Bool)
    (inclRaw exclRaw : Option (List String)) : List String × List String :=
  (outputChunks fs paths recursive (prepExts inclRaw) (prepExts exclRaw),
   (gather_all_files fs paths recursive (prepExts inclRaw) (prepExts exclRaw)).2)

theorem bodyChunks_eq_flatMap (fs : FSNode) : ∀ l : List (List String),
    bodyChunks fs l = l.flatMap (fileSection fs)
  | [] => rfl
  | p :: rest => by rw [bodyChunks, List.flatMap_cons, bodyChunks_eq_flatMap fs rest]

/-- C5: the final list written to the body is the concatenation of all
per-entry gathered files (duplicates preserved) sorted — lexicographically
by code point, hence case-sensitively — by full path string, and the
per-file sections are emitted in exactly that order. -/
theorem body_files_sorted_by_path_string (fs : FSNode)
    (entries : List (List String × List (List String))) :
    List.Sorted pathLe (sortPaths (entries.flatMap fun e => e.2)) ∧
    (sortPaths (entries.flatMap fun e => e.2)).Perm (entries.flatMap fun e => e.2) ∧
    bodyChunks fs (sortPaths (entries.flatMap fun e => e.2))
      = (sortPaths (entries.flatMap fun e => e.2)).flatMap (fileSection fs) :=
  ⟨List.sorted_insertionSort pathLe _, List.perm_insertionSort pathLe _,
    bodyChunks_eq_flatMap fs _⟩

/-- C6: a file whose read fails gets exactly one error line between its
START and END markers, and every file of the list — the failing one
included — still contributes its section: one failure never aborts the
body. -/
theorem read_failure_inline_error (fs : FSNode) (files : List (List String))
    (p : List String) (e : String) (hp : p ∈ files) (he : readFile fs p = .error e) :
    fileSection fs p = [startMarker p, errorLine e, endMarker p] ∧
    bodyChunks fs files = files.flatMap (fileSection fs) ∧
    (∀ q ∈ files, startMarker q ∈ bodyChunks fs files ∧ endMarker q ∈ bodyChunks fs files) := by
  refine ⟨?_, bodyChunks_eq_flatMap fs files, ?_⟩
  · rw [fileSection, he]
    rfl
  · intro q hq
    rw [bodyChunks_eq_flatMap]
    constructor
    · exact List.mem_flatMap.mpr ⟨q, hq, by rw [fileSection]; simp⟩
    · exact List.mem_flatMap.mpr ⟨q, hq, by rw [fileSection]; simp⟩

/-- Witness for C6: a file system whose only file raises on read. -/
theorem read_failure_witness :
    fileSection (FSNode.dir [("bad.txt", FSNode.file (Except.error "Permission denied"))])
        ["bad.txt"]
      = [startMarker ["bad.txt"], errorLine "Permission denied", endMarker ["bad.txt"]] :=
  (read_failure_inline_error
    (FSNode.dir [("bad.txt", FSNode.file (Except.error "Permission denied"))])
    [["bad.txt"]] ["bad.txt"] "Permission denied" (by simp) (by rfl)).1

/-! ## Dict and header-loop facts -/

theorem assocFind_dictInsert (l : List (List String × List (List String)))
    (k p : List String) (v : List (List String)) :
    assocFind (dictInsert l k v) p = if p = k then some v else assocFind l p := by
  induction l with
  | nil =>
    by_cases h : p = k
    · simp [dictInsert, assocFind, h]
    · have h2 : ¬ k = p := fun hh => h hh.symm
      simp [dictInsert, assocFind, h, h2]
  | cons a rest ih =>
    obtain ⟨k', v'⟩ := a
    by_cases hk : k' = k
    · subst hk
      by_cases hpk : k' = p
      · subst hpk
        simp [dictInsert, assocFind]
      · have h2 : ¬ p = k' := fun hh => hpk hh.symm
        simp [dictInsert, assocFind, hpk, h2]
    · by_cases hpk : k' = p
      · subst hpk
        simp [dictInsert, assocFind, hk]
      · simp [dictInsert, assocFind, hk, hpk, ih]

theorem mem_dictInsert {l : List (List String × List (List String))}
    {k : List String} {v : List (List String)} {e : List String × List (List String)}
    (h : e ∈ dictInsert l k v) : e ∈ l ∨ e = (k, v) := by
  induction l with
  | nil => simpa [dictInsert] using h
  | cons a rest ih =>
    obtain ⟨k', v'⟩ := a
    by_cases hk : k' = k
    · subst hk
      rw [dictInsert, if_pos rfl] at h
      rcases List.mem_cons.mp h with h1 | h1
      · exact Or.inr (by rw [h1])
      · exact Or.inl (List.mem_cons.mpr (Or.inr h1))
    · rw [dictInsert, if_neg hk] at h
      rcases List.mem_cons.mp h with h1 | h1
      · exact Or.inl (List.mem_cons.mpr (Or.inl h1))
      · rcases ih h1 with h2 | h2
        · exact Or.inl (List.mem_cons.mpr (Or.inr h2))
        · exact Or.inr h2

theorem dictInsert_keys (l : List (List String × List (List String)))
    (k : List String) (v : List (List String)) :
    (dictInsert l k v).map Prod.fst =
      if k ∈ l.map Prod.fst then l.map Prod.fst else l.map Prod.fst ++ [k] := by
  induction l with
  | nil => simp [dictInsert]
  | cons a rest ih =>
    obtain ⟨k', v'⟩ := a
    by_cases hk : k' = k
    · subst hk
      simp [dictInsert]
    · rw [dictInsert, if_neg hk]
      have h2 : ¬ k = k' := fun hh => hk hh.symm
      by_cases hmem : k ∈ rest.map Prod.fst
      · simp [hmem, ih, h2]
      · simp [hmem, ih, h2]

/-- Keys of the dict built by `gather_all_files`: the supplied paths with
later duplicates dropped, in first-occurrence order. -/
def dedupKeepFirst (paths : List (List String)) : List (List String) :=
  paths.foldl (fun ks p => if p ∈ ks then ks else ks ++ [p]) []

theorem gather_keys (fs : FSNode) (recursive : Bool) (incl excl : Option (List String)) :
    ∀ (paths : List (List String)) (acc : List (List String × List (List String)) × List String),
      ((paths.foldl (fun acc p =>
          (dictInsert acc.1 p (sortPaths (gather_files_for_path fs p recursive incl excl).1),
           acc.2 ++ (gather_files_for_path fs p recursive incl excl).2)) acc).1.map Prod.fst)
        = paths.foldl (fun ks p => if p ∈ ks then ks else ks ++ [p]) (acc.1.map Prod.fst)
  | [], _ => rfl
  | p :: rest, acc => by
    rw [List.foldl_cons, List.foldl_cons, gather_keys fs recursive incl excl rest]
    congr 1
    rw [dictInsert_keys]

theorem gather_warnings_single (fs : FSNode) (p : List String) (recursive : Bool)
    (incl excl : Option (List String)) :
    (gather_files_for_path fs p recursive incl excl).2
      = if existsFS fs p then [] else [warningMsg p] := by
  rw [gather_files_for_path]
  cases hl : lookupFS fs p with
  | none => simp [existsFS, hl]
  | some n => cases n <;> simp [existsFS, hl]

theorem gather_all_warnings (fs : FSNode) (recursive : Bool) (incl excl : Option (List String)) :
    ∀ (paths : List (List String)) (acc : List (List String × List (List String)) × List String),
      (paths.foldl (fun acc p =>
          (dictInsert acc.1 p (sortPaths (gather_files_for_path fs p recursive incl excl).1),
           acc.2 ++ (gather_files_for_path fs p recursive incl excl).2)) acc).2
        = acc.2 ++ paths.flatMap (fun p => if existsFS fs p then [] else [warningMsg p])
  | [], acc => by simp
  | p :: rest, acc => by
    rw [List.foldl_cons, gather_all_warnings fs recursive incl excl rest]
    rw [List.flatMap_cons, ← List.append_assoc]
    congr 1
    simp only []
    rw [gather_warnings_single]

theorem gather_all_lookup (fs : FSNode) (recursive : Bool) (incl excl : Option (List String)) :
    ∀ (paths : List (List String)) (acc : List (List String × List (List String)) × List String)
      (p : List String),
      assocFind (paths.foldl (fun acc p =>
          (dictInsert acc.1 p (sortPaths (gather_files_for_path fs p recursive incl excl).1),
           acc.2 ++ (gather_files_for_path fs p recursive incl excl).2)) acc).1 p
        = if p ∈ paths then some (sortPaths (gather_files_for_path fs p recursive incl excl).1)
          else assocFind acc.1 p
  | [], _, p => by simp
  | q :: rest, acc, p => by
    rw [List.foldl_cons, gather_all_lookup fs recursive incl excl rest]
    by_cases hmem : p ∈ rest
    · simp [hmem]
    · rw [if_neg hmem]
      by_cases hpq : p = q
      · subst hpq
        simp [assocFind_dictInsert]
      · rw [assocFind_dictInsert, if_neg hpq, if_neg (by
          intro hc
          rcases List.mem_cons.mp hc with h1 | h1
          · exact hpq h1
          · exact hmem h1)]

theorem gather_all_entries_prop (fs : FSNode) (recursive : Bool)
    (incl excl : Option (List String))
    (P : List String × List (List String) → Prop) :
    ∀ (paths : List (List String)) (acc : List (List String × List (List String)) × List String),
      (∀ e ∈ acc.1, P e) →
      (∀ p ∈ paths, P (p, sortPaths (gather_files_for_path fs p recursive incl excl).1)) →
      ∀ e ∈ (paths.foldl (fun acc p =>
          (dictInsert acc.1 p (sortPaths (gather_files_for_path fs p recursive incl excl).1),
           acc.2 ++ (gather_files_for_path fs p recursive incl excl).2)) acc).1, P e
  | [], _, hacc, _, e => hacc e
  | q :: rest, acc, hacc, hP, e => by
    rw [List.foldl_cons]
    refine gather_all_entries_prop fs recursive incl excl P rest _ ?_
      (fun p hp => hP p (List.mem_cons.mpr (Or.inr hp))) e
    intro e' he'
    rcases mem_dictInsert he' with h1 | h1
    · exact hacc e' h1
    · rw [h1]; exact hP q (List.mem_cons.mpr (Or.inl rfl))

theorem headerCore_foldl (fs : FSNode) :
    ∀ (entries : List (List String × List (List String))) (acc : List String) (flag : Bool),
      entries.foldl
        (fun (acc : List String × Bool) e =>
          if e.2.isEmpty then acc
          else
            (acc.1 ++
              (build_directory_structure_for_files (isFileFS fs e.1) e.1 e.2).map
                (fun l => l ++ "\n"),
             true))
        (acc, flag)
      = (acc ++ entries.flatMap (fun e =>
            if e.2.isEmpty then []
            else (build_directory_structure_for_files (isFileFS fs e.1) e.1 e.2).map
              (fun l => l ++ "\n")),
         flag || !(entries.all fun e => e.2.isEmpty))
  | [], acc, flag => by simp
  | e :: rest, acc, flag => by
    rw [List.foldl_cons]
    by_cases hemp : e.2.isEmpty
    · rw [if_pos hemp, headerCore_foldl fs rest acc flag]
      have h3 : e.2 = [] := List.isEmpty_iff.mp hemp
      simp [hemp, h3]
    · rw [if_neg hemp, headerCore_foldl fs rest _ true]
      have h2 : e.2.isEmpty = false := by
        revert hemp; cases e.2.isEmpty <;> simp
      have h3 : ¬ e.2 = [] := by
        intro hc
        rw [hc] at h2
        cases h2
      simp [h2, h3]

theorem headerCore_eq (fs : FSNode) (entries : List (List String × List (List String))) :
    headerCore fs entries =
      if entries.all (fun e => e.2.isEmpty) then [noFilesLine]
      else entries.flatMap fun e =>
        if e.2.isEmpty then []
        else (build_directory_structure_for_files (isFileFS fs e.1) e.1 e.2).map
          (fun l => l ++ "\n") := by
  rw [headerCore]
  rw [headerCore_foldl fs entries [] false]
  cases hall : entries.all (fun e => e.2.isEmpty) with
  | false => simp [hall]
  | true =>
    have hnil : (entries.flatMap fun e =>
        if e.2.isEmpty then []
        else (build_directory_structure_for_files (isFileFS fs e.1) e.1 e.2).map
          (fun l => l ++ "\n")) = [] := by
      rw [List.flatMap_eq_nil_iff]
      intro e he
      rw [if_pos (List.all_eq_true.mp hall e he)]
    rw [hnil]
    simp

/-- A file system with one directory `a` holding one file, used to exhibit
the duplicate-path collapse. -/
def fsDup : FSNode := .dir [("a", .dir [("x.txt", .file (.ok "hello\n"))])]

/-- C10 (counterexample): supplying the same top-level path twice yields a
single dict entry and a single rendered subtree, not one subtree per
supplied path in the order given. -/
theorem header_per_path_counterexample :
    ((gather_all_files fsDup [["a"], ["a"]] false none none).1.map Prod.fst = [["a"]]) ∧
    headerCore fsDup (gather_all_files fsDup [["a"], ["a"]] false none none).1 ≠
      [["a"], ["a"]].flatMap (fun p =>
        (build_directory_structure_for_files (isFileFS fsDup p) p
          (sortPaths (gather_files_for_path fsDup p false none none).1)).map
            (fun l => l ++ "\n")) := by
  constructor
  · decide
  · have hgather : (gather_all_files fsDup [["a"], ["a"]] false none none).1
        = [(["a"], [["a", "x.txt"]])] := by decide
    have hone : sortPaths (gather_files_for_path fsDup ["a"] false none none).1
        = [["a", "x.txt"]] := by decide
    have hisf : isFileFS fsDup ["a"] = false := by decide
    rw [hgather]
    have hL : headerCore fsDup [(["a"], [["a", "x.txt"]])]
        = (build_directory_structure_for_files false ["a"] [["a", "x.txt"]]).map
            (fun l => l ++ "\n") := by
      rw [headerCore]
      simp [hisf]
    have hR : [["a"], ["a"]].flatMap (fun p =>
        (build_directory_structure_for_files (isFileFS fsDup p) p
          (sortPaths (gather_files_for_path fsDup p false none none).1)).map
            (fun l => l ++ "\n"))
        = (build_directory_structure_for_files false ["a"] [["a", "x.txt"]]).map
            (fun l => l ++ "\n")
          ++ (build_directory_structure_for_files false ["a"] [["a", "x.txt"]]).map
            (fun l => l ++ "\n") := by
      simp [hone, hisf]
    rw [hL, hR]
    intro hcontra
    have hlen := congrArg List.length hcontra
    rw [List.length_append] at hlen
    have hpos :
        0 < ((build_directory_structure_for_files false ["a"] [["a", "x.txt"]]).map
          (fun l => l ++ "\n")).length := by
      rw [build_directory_structure_for_files, if_neg (by simp)]
      simp
    omega

/-- C10 (amended): the directory-structure header is one independent
subtree per *distinct* resolved top-level path, in the order of each
path's first occurrence on the command line (the dict collapses duplicate
paths); an entry that yielded no files contributes no lines, and the
placeholder line appears exactly when every entry yielded no files. -/
theorem header_per_entry_structure (fs : FSNode) (recursive : Bool)
    (incl excl : Option (List String)) (paths : List (List String)) :
    ((gather_all_files fs paths recursive incl excl).1.map Prod.fst = dedupKeepFirst paths) ∧
    (∀ entries, headerCore fs entries =
      if entries.all (fun e => e.2.isEmpty) then [noFilesLine]
      else entries.flatMap fun e =>
        if e.2.isEmpty then []
        else (build_directory_structure_for_files (isFileFS fs e.1) e.1 e.2).map
          (fun l => l ++ "\n")) :=
  ⟨by rw [gather_all_files, gather_keys]; rfl, headerCore_eq fs⟩


theorem gather_nonexistent (fs : FSNode) (p : List String) (recursive : Bool)
    (incl excl : Option (List String)) (h : existsFS fs p = false) :
    gather_files_for_path fs p recursive incl excl = ([], [warningMsg p]) := by
  have hl : lookupFS fs p = none := by
    revert h
    rw [existsFS]
    cases lookupFS fs p <;> simp
  rw [gather_files_for_path, hl]

/-- C7: a nonexistent top-level path produces exactly one warning on the
error stream and is skipped, while every supplied path's entry is computed
from the file system independently of the other paths; when every supplied
path is nonexistent, the output is exactly the header banner, the no-files
placeholder and the closing banner, with an empty concatenation body. -/
theorem missing_paths_warn_and_skip (fs : FSNode) (paths : List (List String))
    (recursive : Bool) (incl excl : Option (List String)) :
    ((gather_all_files fs paths recursive incl excl).2
        = paths.flatMap fun p => if existsFS fs p then [] else [warningMsg p]) ∧
    (∀ p ∈ paths,
      assocFind (gather_all_files fs paths recursive incl excl).1 p
        = some (sortPaths (gather_files_for_path fs p recursive incl excl).1)) ∧
    ((∀ p ∈ paths, existsFS fs p = false) →
      outputChunks fs paths recursive incl excl = [headerBanner, noFilesLine, closingBanner]) := by
  refine ⟨?_, ?_, ?_⟩
  · rw [gather_all_files, gather_all_warnings]
    rfl
  · intro p hp
    rw [gather_all_files, gather_all_lookup, if_pos hp]
  · intro hall
    have hempty : ∀ e ∈ (gather_all_files fs paths recursive incl excl).1, e.2 = [] := by
      rw [gather_all_files]
      refine gather_all_entries_prop fs recursive incl excl (fun e => e.2 = []) paths
        ([], []) (by intro e he; cases he) ?_
      intro p hp
      rw [gather_nonexistent fs p recursive incl excl (hall p hp)]
      rfl
    have hallemp :
        ((gather_all_files fs paths recursive incl excl).1.all fun e => e.2.isEmpty) = true := by
      rw [List.all_eq_true]
      intro e he
      rw [hempty e he]
      rfl
    have hflat :
        ((gather_all_files fs paths recursive incl excl).1.flatMap fun e => e.2) = [] := by
      rw [List.flatMap_eq_nil_iff]
      exact hempty
    rw [outputChunks, headerCore_eq, hallemp, if_pos rfl, hflat]
    rfl

/-- Witness for C7: a single nonexistent input path on an empty root. -/
theorem missing_paths_witness :
    outputChunks (FSNode.dir []) [["ghost"]] false none none
      = [headerBanner, noFilesLine, closingBanner] :=
  (missing_paths_warn_and_skip (FSNode.dir []) [["ghost"]] false none none).2.2 (by decide)

/-! ## Determinism: output does not depend on directory enumeration order

Two runs over an unchanged tree may see `os.listdir` present siblings in
different orders; everything else being equal the byte output must agree.
We canonicalise a file-system tree by recursively sorting the children of
every directory by name, and show the whole run is invariant under
canonicalisation for well-formed trees (per-directory names unique and
free of the path separator). -/

/-- A valid file-system name: it never contains the path separator. -/
def okName (n : String) : Bool := !(n.data.contains '/')

mutual

/-- Well-formedness of a file-system tree: every directory's child names
are distinct valid names. -/
def wfFS : FSNode → Bool
  | .file _ => true
  | .dir ch => decide ((ch.map Prod.fst).Nodup) && wfChildren ch

def wfChildren : List (String × FSNode) → Bool
  | [] => true
  | (n, c) :: rest => okName n && wfFS c && wfChildren rest

end

def pairLeFS (a b : String × FSNode) : Prop := strLe a.1 b.1

instance : DecidableRel pairLeFS := fun a b => by unfold pairLeFS strLe; infer_instance

mutual

/-- Canonical form of a file-system tree: children of every directory
sorted by name.  Two trees with the same canonical form hold the same
directories and file contents, presented in possibly different
enumeration orders. -/
def canon : FSNode → FSNode
  | .file c => .file c
  | .dir ch => .dir (List.insertionSort pairLeFS (canonChildren ch))

def canonChildren : List (String × FSNode) → List (String × FSNode)
  | [] => []
  | (n, c) :: rest => (n, canon c) :: canonChildren rest

end

theorem canonChildren_eq_map : ∀ l : List (String × FSNode),
    canonChildren l = l.map fun e => (e.1, canon e.2)
  | [] => rfl
  | (n, c) :: rest => by rw [canonChildren, canonChildren_eq_map rest, List.map_cons]

theorem wfChildren_mem : ∀ {l : List (String × FSNode)}, wfChildren l = true →
    ∀ e ∈ l, okName e.1 = true ∧ wfFS e.2 = true := by
  intro l
  induction l with
  | nil => intro _ e he; cases he
  | cons a rest ih =>
    obtain ⟨n, c⟩ := a
    intro hw e he
    rw [wfChildren] at hw
    simp only [Bool.and_eq_true] at hw
    rcases List.mem_cons.mp he with h1 | h1
    · rw [h1]
      exact ⟨hw.1.1, hw.1.2⟩
    · exact ih hw.2 e h1

theorem wfFS_dir_parts {ch : List (String × FSNode)} (h : wfFS (.dir ch) = true) :
    (ch.map Prod.fst).Nodup ∧ wfChildren ch = true := by
  rw [wfFS] at h
  simp only [Bool.and_eq_true, decide_eq_true_eq] at h
  exact h

theorem assocFind_cons_eq {κ α : Type} [DecidableEq κ] (k : κ) (v : α)
    (rest : List (κ × α)) (e : κ) :
    assocFind ((k, v) :: rest) e = if k = e then some v else assocFind rest e := rfl

theorem assocFind_mem {κ α : Type} [DecidableEq κ] :
    ∀ {l : List (κ × α)} {d : κ} {v : α}, assocFind l d = some v → (d, v) ∈ l := by
  intro l
  induction l with
  | nil => intro d v h; cases h
  | cons a rest ih =>
    intro d v h
    obtain ⟨k, w⟩ := a
    rw [assocFind_cons_eq] at h
    by_cases hk : k = d
    · rw [if_pos hk] at h
      cases h
      exact List.mem_cons.mpr (Or.inl (by rw [hk]))
    · rw [if_neg hk] at h
      exact List.mem_cons.mpr (Or.inr (ih h))

theorem assocFind_perm {κ α : Type} [DecidableEq κ] {l l' : List (κ × α)}
    (hp : l.Perm l') (hn : (l.map Prod.fst).Nodup) (e : κ) :
    assocFind l e = assocFind l' e := by
  induction hp with
  | nil => rfl
  | cons a _ ih =>
    obtain ⟨k, v⟩ := a
    rw [assocFind_cons_eq, assocFind_cons_eq]
    rw [List.map_cons, List.nodup_cons] at hn
    by_cases hk : k = e
    · rw [if_pos hk, if_pos hk]
    · rw [if_neg hk, if_neg hk, ih hn.2]
  | swap x y l =>
    obtain ⟨k1, v1⟩ := x
    obtain ⟨k2, v2⟩ := y
    rw [assocFind_cons_eq, assocFind_cons_eq, assocFind_cons_eq, assocFind_cons_eq]
    simp only [List.map_cons, List.nodup_cons, List.mem_cons] at hn
    by_cases h2 : k2 = e
    · by_cases h1 : k1 = e
      · exact absurd (h2.trans h1.symm) (fun hc => hn.1 (Or.inl hc))
      · rw [if_pos h2, if_neg h1, if_pos h2]
    · by_cases h1 : k1 = e
      · rw [if_neg h2, if_pos h1, if_pos h1]
      · rw [if_neg h2, if_neg h1, if_neg h1, if_neg h2]
  | trans hp1 hp2 ih1 ih2 =>
    rw [ih1 hn, ih2 ((hp1.map Prod.fst).nodup_iff.mp hn)]

theorem assocFind_map_val {κ α : Type} [DecidableEq κ] (g : α → α) :
    ∀ (l : List (κ × α)) (e : κ),
      assocFind (l.map fun x => (x.1, g x.2)) e = (assocFind l e).map g
  | [], _ => rfl
  | (k, v) :: rest, e => by
    rw [List.map_cons, assocFind_cons_eq, assocFind_cons_eq]
    by_cases hk : k = e
    · rw [if_pos hk, if_pos hk, Option.map_some']
    · rw [if_neg hk, if_neg hk, assocFind_map_val g rest e]

theorem assocFind_canonChildren {ch : List (String × FSNode)}
    (hn : (ch.map Prod.fst).Nodup) (c : String) :
    assocFind (List.insertionSort pairLeFS (canonChildren ch)) c
      = (assocFind ch c).map canon := by
  have hkeys : (canonChildren ch).map Prod.fst = ch.map Prod.fst := by
    rw [canonChildren_eq_map, List.map_map]
    rfl
  have hn2 : ((List.insertionSort pairLeFS (canonChildren ch)).map Prod.fst).Nodup := by
    refine (((List.perm_insertionSort pairLeFS (canonChildren ch)).map Prod.fst).nodup_iff).mpr ?_
    rw [hkeys]
    exact hn
  rw [assocFind_perm (List.perm_insertionSort pairLeFS (canonChildren ch)) hn2 c]
  rw [canonChildren_eq_map, assocFind_map_val]

theorem lookupFS_canon : ∀ (p : List String) (fs : FSNode), wfFS fs = true →
    lookupFS (canon fs) p = (lookupFS fs p).map canon
  | [], fs, _ => by cases fs <;> rfl
  | _ :: _, .file _, _ => rfl
  | c :: rest, .dir ch, hwf => by
    obtain ⟨hn, hch⟩ := wfFS_dir_parts hwf
    rw [show canon (.dir ch) = .dir (List.insertionSort pairLeFS (canonChildren ch)) from rfl]
    rw [lookupFS, lookupFS, assocFind_canonChildren hn c]
    cases hf : assocFind ch c with
    | none => rfl
    | some n =>
      rw [Option.map_some']
      exact lookupFS_canon rest n (wfChildren_mem hch (c, n) (assocFind_mem hf)).2

theorem existsFS_canon (fs : FSNode) (hwf : wfFS fs = true) (p : List String) :
    existsFS (canon fs) p = existsFS fs p := by
  rw [existsFS, existsFS, lookupFS_canon p fs hwf]
  cases lookupFS fs p <;> rfl

theorem isFileNode_canon : ∀ n : FSNode, (canon n).isFileNode = n.isFileNode
  | .file _ => rfl
  | .dir _ => rfl

theorem isFileFS_canon (fs : FSNode) (hwf : wfFS fs = true) (p : List String) :
    isFileFS (canon fs) p = isFileFS fs p := by
  rw [isFileFS, isFileFS, lookupFS_canon p fs hwf]
  cases lookupFS fs p with
  | none => rfl
  | some n =>
    rw [Option.map_some']
    exact congrArg (fun b : Bool => b) (isFileNode_canon n)

theorem readFile_canon (fs : FSNode) (hwf : wfFS fs = true) (p : List String) :
    readFile (canon fs) p = readFile fs p := by
  rw [readFile, readFile, lookupFS_canon p fs hwf]
  cases lookupFS fs p with
  | none => rfl
  | some n => cases n <;> rfl

theorem walkSub_eq_flatMap (pre : List String) : ∀ l : List (String × FSNode),
    walkSub pre l = l.flatMap fun c => walkFiles (pre ++ [c.1]) c.2
  | [] => rfl
  | (n, c) :: rest => by
    rw [walkSub, List.flatMap_cons, walkSub_eq_flatMap pre rest]

theorem flatMap_perm_congr {α β : Type} {l : List α} {f g : α → List β}
    (h : ∀ a ∈ l, (f a).Perm (g a)) : (l.flatMap f).Perm (l.flatMap g) := by
  induction l with
  | nil => exact List.Perm.refl _
  | cons a l ih =>
    rw [List.flatMap_cons, List.flatMap_cons]
    exact (h a (by simp)).append (ih fun x hx => h x (by simp [hx]))

theorem filterMap_canonChildren (pre : List String) : ∀ ch : List (String × FSNode),
    (canonChildren ch).filterMap (fun c =>
      match c.2 with
      | FSNode.file _ => some (pre ++ [c.1])
      | FSNode.dir _ => none)
    = ch.filterMap (fun c =>
      match c.2 with
      | FSNode.file _ => some (pre ++ [c.1])
      | FSNode.dir _ => none)
  | [] => rfl
  | (n, c) :: rest => by
    rw [canonChildren]
    rw [List.filterMap_cons, List.filterMap_cons, filterMap_canonChildren pre rest]
    cases c <;> rfl

theorem walkFiles_canon : ∀ (n : FSNode), wfFS n = true → ∀ pre : List String,
    (walkFiles pre (canon n)).Perm (walkFiles pre n)
  | .file _, _, _ => List.Perm.refl _
  | .dir ch, hwf, pre => by
    obtain ⟨hn, hch⟩ := wfFS_dir_parts hwf
    rw [show canon (.dir ch) = .dir (List.insertionSort pairLeFS (canonChildren ch)) from rfl]
    rw [walkFiles, walkFiles, walkSub_eq_flatMap, walkSub_eq_flatMap]
    have hperm := List.perm_insertionSort pairLeFS (canonChildren ch)
    refine List.Perm.append ?_ ?_
    · refine (hperm.filterMap _).trans ?_
      rw [filterMap_canonChildren pre ch]
    · refine (hperm.flatMap_right _).trans ?_
      rw [canonChildren_eq_map, List.flatMap_map]
      refine flatMap_perm_congr ?_
      intro e he
      exact walkFiles_canon e.2 (wfChildren_mem hch e he).2 (pre ++ [e.1])
termination_by n _ _ => sizeOf n
decreasing_by
  have h3 := List.sizeOf_lt_of_mem he
  have h4 : sizeOf e.2 < sizeOf e := by
    obtain ⟨x, y⟩ := e
    simp
  simp only [FSNode.dir.sizeOf_spec]
  omega

theorem gather_eq_none {fs : FSNode} {p : List String} (hl : lookupFS fs p = none)
    (recursive : Bool) (incl excl : Option (List String)) :
    gather_files_for_path fs p recursive incl excl = ([], [warningMsg p]) := by
  rw [gather_files_for_path, hl]

theorem gather_eq_file {fs : FSNode} {p : List String} {c : Except String String}
    (hl : lookupFS fs p = some (.file c)) (recursive : Bool) (incl excl : Option (List String)) :
    gather_files_for_path fs p recursive incl excl
      = (if should_include_file p incl excl then [p] else [], []) := by
  rw [gather_files_for_path, hl]

theorem gather_eq_dir {fs : FSNode} {p : List String} {ch : List (String × FSNode)}
    (hl : lookupFS fs p = some (.dir ch)) (recursive : Bool) (incl excl : Option (List String)) :
    gather_files_for_path fs p recursive incl excl
      = (if recursive then
          (walkFiles p (.dir ch)).filter fun f => should_include_file f incl excl
        else
          ch.filterMap fun c =>
            match c.2 with
            | .file _ =>
              if should_include_file (p ++ [c.1]) incl excl then some (p ++ [c.1]) else none
            | .dir _ => none,
        []) := by
  rw [gather_files_for_path, hl]

theorem wfFS_lookup : ∀ (p : List String) (fs : FSNode), wfFS fs = true →
    ∀ {n : FSNode}, lookupFS fs p = some n → wfFS n = true
  | [], fs, hwf, n, h => by
    cases fs <;> (cases h; exact hwf)
  | _ :: _, .file _, _, _, h => by cases h
  | c :: rest, .dir ch, hwf, n, h => by
    rw [lookupFS] at h
    cases hf : assocFind ch c with
    | none => rw [hf] at h; cases h
    | some m =>
      rw [hf] at h
      exact wfFS_lookup rest m
        ((wfChildren_mem (wfFS_dir_parts hwf).2 (c, m) (assocFind_mem hf)).2) h

theorem filterMap_canonChildren_direct (path : List String)
    (incl excl : Option (List String)) : ∀ ch : List (String × FSNode),
    (canonChildren ch).filterMap (fun c =>
      match c.2 with
      | FSNode.file _ =>
        if should_include_file (path ++ [c.1]) incl excl then some (path ++ [c.1]) else none
      | FSNode.dir _ => none)
    = ch.filterMap (fun c =>
      match c.2 with
      | FSNode.file _ =>
        if should_include_file (path ++ [c.1]) incl excl then some (path ++ [c.1]) else none
      | FSNode.dir _ => none)
  | [] => rfl
  | (n, c) :: rest => by
    rw [canonChildren]
    rw [List.filterMap_cons, List.filterMap_cons, filterMap_canonChildren_direct path incl excl rest]
    cases c <;> rfl

theorem gather_canon (fs : FSNode) (hwf : wfFS fs = true) (p : List String)
    (recursive : Bool) (incl excl : Option (List String)) :
    ((gather_files_for_path (canon fs) p recursive incl excl).1).Perm
      (gather_files_for_path fs p recursive incl excl).1 ∧
    (gather_files_for_path (canon fs) p recursive incl excl).2
      = (gather_files_for_path fs p recursive incl excl).2 := by
  cases hl : lookupFS fs p with
  | none =>
    have hl' : lookupFS (canon fs) p = none := by
      rw [lookupFS_canon p fs hwf, hl]
      rfl
    rw [gather_eq_none hl', gather_eq_none hl]
    exact ⟨List.Perm.refl _, rfl⟩
  | some n =>
    cases n with
    | file c =>
      have hl' : lookupFS (canon fs) p = some (.file c) := by
        rw [lookupFS_canon p fs hwf, hl]
        rfl
      rw [gather_eq_file hl', gather_eq_file hl]
      exact ⟨List.Perm.refl _, rfl⟩
    | dir ch =>
      have hwfn : wfFS (.dir ch) = true := wfFS_lookup p fs hwf hl
      have hl' : lookupFS (canon fs) p
          = some (.dir (List.insertionSort pairLeFS (canonChildren ch))) := by
        rw [lookupFS_canon p fs hwf, hl]
        rfl
      rw [gather_eq_dir hl', gather_eq_dir hl]
      refine ⟨?_, rfl⟩
      by_cases hrec : recursive
      · rw [if_pos hrec, if_pos hrec]
        exact (walkFiles_canon (.dir ch) hwfn p).filter _
      · rw [if_neg hrec, if_neg hrec]
        refine ((List.perm_insertionSort pairLeFS (canonChildren ch)).filterMap _).trans ?_
        rw [filterMap_canonChildren_direct p incl excl ch]

/-! ## Injectivity of the path string on valid names -/

/-- `str(path)` unfolded: a `/` before each component's characters. -/
def flatSlash (p : List String) : List Char := p.flatMap fun c => '/' :: c.data

theorem pathKey_foldl_init : ∀ (p : List String) (init : List Char),
    p.foldl (fun acc c => acc ++ ('/' :: c.data)) init = init ++ flatSlash p
  | [], init => by simp [flatSlash]
  | c :: rest, init => by
    rw [List.foldl_cons, pathKey_foldl_init rest]
    simp [flatSlash, List.flatMap_cons, List.append_assoc]

theorem pathKey_eq_flat (p : List String) : pathKey p = flatSlash p := by
  rw [pathKey, pathKey_foldl_init, List.nil_append]

theorem pathKey_append (a b : List String) :
    pathKey (a ++ b) = pathKey a ++ flatSlash b := by
  rw [pathKey_eq_flat, pathKey_eq_flat, flatSlash, flatSlash, flatSlash, List.flatMap_append]

theorem flatSlash_head : ∀ l : List String,
    flatSlash l = [] ∨ ∃ t, flatSlash l = '/' :: t
  | [] => Or.inl rfl
  | c :: rest => Or.inr ⟨c.data ++ flatSlash rest, by
    rw [flatSlash, List.flatMap_cons, List.cons_append]
    rfl⟩

theorem okName_not_mem {c : String} (h : okName c = true) : '/' ∉ c.data := by
  rw [okName, Bool.not_eq_true'] at h
  intro hm
  rw [List.contains_eq_any_beq] at h
  have : c.data.any ('/' == ·) = true := by
    rw [List.any_eq_true]
    exact ⟨'/', hm, by simp⟩
  rw [this] at h
  cases h

theorem slashfree_append_inj : ∀ (a : List Char), ∀ (b r1 r2 : List Char),
    '/' ∉ a → '/' ∉ b →
    (r1 = [] ∨ ∃ t, r1 = '/' :: t) → (r2 = [] ∨ ∃ t, r2 = '/' :: t) →
    a ++ r1 = b ++ r2 → a = b ∧ r1 = r2 := by
  intro a
  induction a with
  | nil =>
    intro b r1 r2 _ hb hr1 _ h
    cases b with
    | nil => exact ⟨rfl, h⟩
    | cons c b' =>
      exfalso
      rw [List.nil_append, List.cons_append] at h
      rcases hr1 with h1 | ⟨t, h1⟩
      · rw [h1] at h; cases h
      · rw [h1] at h
        have hc : '/' = c := (List.cons.inj h).1
        exact hb (by rw [← hc]; exact List.mem_cons_self _ _)
  | cons x a' ih =>
    intro b r1 r2 ha hb hr1 hr2 h
    cases b with
    | nil =>
      exfalso
      rw [List.nil_append, List.cons_append] at h
      rcases hr2 with h2 | ⟨t, h2⟩
      · rw [h2] at h; cases h
      · rw [h2] at h
        have hc : x = '/' := (List.cons.inj h).1
        exact ha (by rw [← hc]; exact List.mem_cons_self _ _)
    | cons y b' =>
      rw [List.cons_append, List.cons_append] at h
      obtain ⟨hxy, h'⟩ := List.cons.inj h
      have ha' : '/' ∉ a' := fun hm => ha (List.mem_cons_of_mem _ hm)
      have hb' : '/' ∉ b' := fun hm => hb (List.mem_cons_of_mem _ hm)
      obtain ⟨hab, hr⟩ := ih b' r1 r2 ha' hb' hr1 hr2 h'
      exact ⟨by rw [hxy, hab], hr⟩

theorem flatSlash_inj : ∀ (a b : List String),
    (∀ c ∈ a, okName c = true) → (∀ c ∈ b, okName c = true) →
    flatSlash a = flatSlash b → a = b
  | [], [], _, _, _ => rfl
  | [], d :: b', _, _, h => by
    rw [show flatSlash [] = [] from rfl] at h
    rcases flatSlash_head (d :: b') with h2 | ⟨t, h2⟩
    · rw [h2] at h
      exact absurd h (by
        rw [flatSlash, List.flatMap_cons] at h2
        cases h2)
    · rw [h2] at h
      cases h
  | c :: a', [], _, _, h => by
    rw [show flatSlash [] = [] from rfl] at h
    rw [flatSlash, List.flatMap_cons, List.cons_append] at h
    cases h
  | c :: a', d :: b', ha, hb, h => by
    rw [flatSlash, flatSlash, List.flatMap_cons, List.flatMap_cons,
      List.cons_append, List.cons_append] at h
    obtain ⟨-, h'⟩ := List.cons.inj h
    have hca : '/' ∉ c.data := okName_not_mem (ha c (by simp))
    have hcd : '/' ∉ d.data := okName_not_mem (hb d (by simp))
    obtain ⟨hcd2, hrest⟩ := slashfree_append_inj c.data d.data (flatSlash a') (flatSlash b')
      hca hcd (flatSlash_head a') (flatSlash_head b') h'
    have hc : c = d := by
      cases c
      cases d
      exact congrArg String.mk hcd2
    rw [hc, flatSlash_inj a' b' (fun x hx => ha x (by simp [hx])) (fun x hx => hb x (by simp [hx]))
      hrest]

/-! ## Shape of walked and gathered paths -/

theorem walkFiles_shape : ∀ (n : FSNode), wfFS n = true → ∀ (pre f : List String),
    f ∈ walkFiles pre n → ∃ s, f = pre ++ s ∧ s ≠ [] ∧ ∀ c ∈ s, okName c = true
  | .file _, _, pre, f, hf => absurd hf (by rw [walkFiles]; exact List.not_mem_nil f)
  | .dir ch, hwf, pre, f, hf => by
    obtain ⟨-, hch⟩ := wfFS_dir_parts hwf
    rw [walkFiles, List.mem_append] at hf
    rcases hf with h1 | h1
    · obtain ⟨c, hc, hval⟩ := List.mem_filterMap.mp h1
      cases hcc : c.2 with
      | file cnt =>
        rw [hcc] at hval
        have hval2 : some (pre ++ [c.1]) = some f := hval
        refine ⟨[c.1], (Option.some.inj hval2).symm, by simp, ?_⟩
        intro x hx
        rw [List.mem_singleton.mp hx]
        exact (wfChildren_mem hch c hc).1
      | dir ch2 =>
        rw [hcc] at hval
        exact Option.noConfusion hval
    · rw [walkSub_eq_flatMap] at h1
      obtain ⟨e, he, hf2⟩ := List.mem_flatMap.mp h1
      obtain ⟨s2, heq, -, hok⟩ :=
        walkFiles_shape e.2 (wfChildren_mem hch e he).2 (pre ++ [e.1]) f hf2
      refine ⟨e.1 :: s2, ?_, by simp, ?_⟩
      · rw [heq, List.append_assoc]
        rfl
      · intro x hx
        rcases List.mem_cons.mp hx with h2 | h2
        · rw [h2]
          exact (wfChildren_mem hch e he).1
        · exact hok x h2
termination_by n _ _ _ _ => sizeOf n
decreasing_by
  have h3 := List.sizeOf_lt_of_mem he
  have h4 : sizeOf e.2 < sizeOf e := by
    obtain ⟨x, y⟩ := e
    simp
  simp only [FSNode.dir.sizeOf_spec]
  omega

theorem gather_dir_shape {fs : FSNode} {p : List String} {ch : List (String × FSNode)}
    (hl : lookupFS fs p = some (.dir ch)) (hwf : wfFS fs = true)
    (recursive : Bool) (incl excl : Option (List String)) :
    ∀ f ∈ (gather_files_for_path fs p recursive incl excl).1,
      ∃ s, f = p ++ s ∧ s ≠ [] ∧ ∀ c ∈ s, okName c = true := by
  have hwfd : wfFS (.dir ch) = true := wfFS_lookup p fs hwf hl
  intro f hf
  rw [gather_eq_dir hl] at hf
  by_cases hrec : recursive
  · rw [if_pos hrec] at hf
    have hf2 : f ∈ (walkFiles p (.dir ch)).filter (fun f => should_include_file f incl excl) :=
      hf
    exact walkFiles_shape (.dir ch) hwfd p f (List.mem_filter.mp hf2).1
  · rw [if_neg hrec] at hf
    have hf2 : f ∈ ch.filterMap (fun c =>
        match c.2 with
        | FSNode.file _ =>
          if should_include_file (p ++ [c.1]) incl excl then some (p ++ [c.1]) else none
        | FSNode.dir _ => none) := hf
    obtain ⟨c, hc, hval⟩ := List.mem_filterMap.mp hf2
    cases hcc : c.2 with
    | file cnt =>
      rw [hcc] at hval
      have hval2 : (if should_include_file (p ++ [c.1]) incl excl then some (p ++ [c.1])
          else none) = some f := hval
      by_cases hinc : should_include_file (p ++ [c.1]) incl excl
      · rw [if_pos hinc] at hval2
        refine ⟨[c.1], (Option.some.inj hval2).symm, by simp, ?_⟩
        intro x hx
        rw [List.mem_singleton.mp hx]
        exact (wfChildren_mem (wfFS_dir_parts hwfd).2 c hc).1
      · rw [if_neg hinc] at hval2
        exact Option.noConfusion hval2
    | dir ch2 =>
      rw [hcc] at hval
      exact Option.noConfusion hval

/-! ## Sorted lists agree when the sort key separates their elements -/

theorem sorted_perm_eq_of_key_inj : ∀ {l l2 : List (List String)},
    l.Perm l2 → List.Sorted pathLe l → List.Sorted pathLe l2 →
    (∀ x ∈ l, ∀ y ∈ l, pathKey x = pathKey y → x = y) → l = l2 := by
  intro l
  induction l with
  | nil =>
    intro l2 hp _ _ _
    exact hp.nil_eq
  | cons a t ih =>
    intro l2 hp hs hs2 hinj
    cases l2 with
    | nil => exact absurd hp.eq_nil (by simp)
    | cons b t2 =>
      have hab : a = b := by
        have hamem : a ∈ b :: t2 := hp.mem_iff.mp (by simp)
        have hbmem : b ∈ a :: t := hp.mem_iff.mpr (by simp)
        rcases List.mem_cons.mp hamem with h1 | h1
        · exact h1
        rcases List.mem_cons.mp hbmem with h2 | h2
        · exact h2.symm
        have hle1 : pathLe a b := (List.sorted_cons.mp hs).1 b h2
        have hle2 : pathLe b a := (List.sorted_cons.mp hs2).1 a h1
        exact hinj a (by simp) b (by simp [h2]) (charListLe_antisymm _ _ hle1 hle2)
      subst hab
      rw [ih hp.cons_inv (List.sorted_cons.mp hs).2 (List.sorted_cons.mp hs2).2
        (fun x hx y hy => hinj x (by simp [hx]) y (by simp [hy]))]

/-- Sorting erases the permutation left by canonicalisation: the per-path
sorted gathered list is identical on the canonical tree. -/
theorem sortPaths_gather_canon (fs : FSNode) (hwf : wfFS fs = true) (p : List String)
    (recursive : Bool) (incl excl : Option (List String)) :
    sortPaths (gather_files_for_path (canon fs) p recursive incl excl).1
      = sortPaths (gather_files_for_path fs p recursive incl excl).1 := by
  cases hl : lookupFS fs p with
  | none =>
    have hl2 : lookupFS (canon fs) p = none := by
      rw [lookupFS_canon p fs hwf, hl]
      rfl
    rw [gather_eq_none hl2, gather_eq_none hl]
  | some n =>
    cases n with
    | file c =>
      have hl2 : lookupFS (canon fs) p = some (.file c) := by
        rw [lookupFS_canon p fs hwf, hl]
        rfl
      rw [gather_eq_file hl2, gather_eq_file hl]
    | dir ch =>
      have hperm : (sortPaths (gather_files_for_path (canon fs) p recursive incl excl).1).Perm
          (sortPaths (gather_files_for_path fs p recursive incl excl).1) :=
        (List.perm_insertionSort pathLe _).trans
          ((gather_canon fs hwf p recursive incl excl).1.trans
            (List.perm_insertionSort pathLe _).symm)
      refine sorted_perm_eq_of_key_inj hperm (List.sorted_insertionSort pathLe _)
        (List.sorted_insertionSort pathLe _) ?_
      intro x hx y hy hk
      have hx2 : x ∈ (gather_files_for_path fs p recursive incl excl).1 :=
        (gather_canon fs hwf p recursive incl excl).1.mem_iff.mp
          ((List.mem_insertionSort pathLe).mp hx)
      have hy2 : y ∈ (gather_files_for_path fs p recursive incl excl).1 :=
        (gather_canon fs hwf p recursive incl excl).1.mem_iff.mp
          ((List.mem_insertionSort pathLe).mp hy)
      obtain ⟨s, hxs, -, hsok⟩ := gather_dir_shape hl hwf recursive incl excl x hx2
      obtain ⟨t, hyt, -, htok⟩ := gather_dir_shape hl hwf recursive incl excl y hy2
      rw [hxs, hyt, pathKey_append, pathKey_append] at hk
      rw [hxs, hyt, flatSlash_inj s t hsok htok (List.append_cancel_left hk)]

/-! ## The whole run is invariant under directory enumeration order -/

theorem foldl_ext {α β : Type} (f g : α → β → α) (h : ∀ a b, f a b = g a b) :
    ∀ (l : List β) (init : α), l.foldl f init = l.foldl g init
  | [], _ => rfl
  | b :: rest, init => by
    rw [List.foldl_cons, List.foldl_cons, h init b, foldl_ext f g h rest]

theorem gather_all_canon (fs : FSNode) (hwf : wfFS fs = true) (paths : List (List String))
    (recursive : Bool) (incl excl : Option (List String)) :
    gather_all_files (canon fs) paths recursive incl excl
      = gather_all_files fs paths recursive incl excl := by
  rw [gather_all_files, gather_all_files]
  refine foldl_ext _ _ ?_ paths ([], [])
  intro acc p
  rw [sortPaths_gather_canon fs hwf p recursive incl excl,
    (gather_canon fs hwf p recursive incl excl).2]

theorem headerCore_canon (fs : FSNode) (hwf : wfFS fs = true)
    (entries : List (List String × List (List String))) :
    headerCore (canon fs) entries = headerCore fs entries := by
  rw [headerCore_eq, headerCore_eq]
  refine if_congr Iff.rfl rfl ?_
  refine listBind_congr ?_
  intro e _
  rw [isFileFS_canon fs hwf e.1]

theorem fileSection_canon (fs : FSNode) (hwf : wfFS fs = true) (p : List String) :
    fileSection (canon fs) p = fileSection fs p := by
  rw [fileSection, fileSection, readFile_canon fs hwf p]

theorem bodyChunks_canon (fs : FSNode) (hwf : wfFS fs = true) (l : List (List String)) :
    bodyChunks (canon fs) l = bodyChunks fs l := by
  rw [bodyChunks_eq_flatMap, bodyChunks_eq_flatMap]
  exact listBind_congr fun p _ => fileSection_canon fs hwf p

theorem outputChunks_canon (fs : FSNode) (hwf : wfFS fs = true) (paths : List (List String))
    (recursive : Bool) (incl excl : Option (List String)) :
    outputChunks (canon fs) paths recursive incl excl
      = outputChunks fs paths recursive incl excl := by
  rw [outputChunks, outputChunks, gather_all_canon fs hwf paths recursive incl excl,
    headerCore_canon fs hwf, bodyChunks_canon fs hwf]

theorem mainOutput_canon (fs : FSNode) (hwf : wfFS fs = true) (paths : List (List String))
    (recursive : Bool) (inclRaw exclRaw : Option (List String)) :
    mainOutput (canon fs) paths recursive inclRaw exclRaw
      = mainOutput fs paths recursive inclRaw exclRaw := by
  rw [mainOutput, mainOutput, outputChunks_canon fs hwf, gather_all_canon fs hwf]

/-- C9: determinism up to directory enumeration order.  Two well-formed
file-system trees holding the same directories and file contents — i.e.
equal after recursively sorting each directory's children, the only thing
`os.listdir` order can change — produce byte-identical output and the same
warnings on every run with the same arguments: all user-visible orders are
re-established by explicit `sorted` calls, so the enumeration order never
shows through. -/
theorem deterministic_output (fs fs2 : FSNode) (paths : List (List String))
    (recursive : Bool) (inclRaw exclRaw : Option (List String))
    (hwf : wfFS fs = true) (hwf2 : wfFS fs2 = true) (hsame : canon fs = canon fs2) :
    mainOutput fs paths recursive inclRaw exclRaw
      = mainOutput fs2 paths recursive inclRaw exclRaw := by
  rw [← mainOutput_canon fs hwf paths recursive inclRaw exclRaw, hsame,
    mainOutput_canon fs2 hwf2 paths recursive inclRaw exclRaw]

/-- Witness for C9: the same two-file directory enumerated in two
different orders yields the same output. -/
theorem deterministic_output_witness :
    mainOutput (FSNode.dir [("b.txt", .file (.ok "B\n")), ("a.txt", .file (.ok "A\n"))])
        [[]] true none none
      = mainOutput (FSNode.dir [("a.txt", .file (.ok "A\n")), ("b.txt", .file (.ok "B\n"))])
        [[]] true none none :=
  deterministic_output
    (FSNode.dir [("b.txt", .file (.ok "B\n")), ("a.txt", .file (.ok "A\n"))])
    (FSNode.dir [("a.txt", .file (.ok "A\n")), ("b.txt", .file (.ok "B\n"))])
    [[]] true none none (by decide) (by decide) rfl
